import Mathlib

/-!
Shallow embedding of the mind-map core:
  * `src/types.ts`            — data model (`NodeData`, `LayoutNode`, app state)
  * `src/utils/treeLayout.ts` — two-pass layout engine (`measureNode`, `layoutNode`,
                                `calculateTreeLayout`)
  * `src/unnamed/part_001`    — the application component: node-store mutations
                                (`updateNodeText`, `handleNodeResize`, `addChild`,
                                `addSibling`, `deleteNode`) and `navigate`.

Modelling conventions:
  * A JS object used as a string-keyed map (`Record<string, T>`) is modelled as an
    association list `List (String × T)` in property insertion order; `Object.values`
    is `List.map Prod.snd` on that list (JS enumerates non-index string keys in
    insertion order; all ids in this program are non-index strings).
  * JS numbers are modelled as `ℚ` (all arithmetic in the program is +, -, *, /2,
    max on sizes and coordinates).
  * General recursion (`measureNode`, `getDescendants`, the layout recursion) takes
    an explicit `fuel : Nat` and returns `Option`; `none` models a non-terminating /
    stack-overflowing run.  For every input actually produced by the program a large
    enough fuel makes the function return `some`.
  * A JS statement that would throw a `TypeError` (reading a field of `undefined`)
    makes the modelled operation return `none`; the React state is then unchanged.
  * `String.localeCompare`-based sorting is modelled as a stable insertion sort by
    code-point order (the ids used by the program are plain ASCII strings, on which
    the two orders agree).
-/

namespace MindMap

/-- Record `NodeData` from `src/types.ts`: id, parent reference (`none` = null root
pointer), text payload. -/
structure NodeData where
  id : String
  parentId : Option String
  text : String
deriving DecidableEq

/-- Value stored under a key of the node store.  `node` is a well-formed `NodeData`
object.  `textOnly t` is the object `{ text: t }` produced by `updateNodeText` when
the id is absent: `{ ...prev[id], text }` spreads `undefined` and yields an object
with only a `text` field (its `id` and `parentId` are `undefined`). -/
inductive Entry where
  | node (d : NodeData)
  | textOnly (text : String)
deriving DecidableEq

/-- The node store `Record<string, NodeData>` in insertion order. -/
abbrev Store := List (String × Entry)

/-- A `(width, height)` dimension entry. -/
structure Dim where
  width : ℚ
  height : ℚ
deriving DecidableEq

/-- The dimension table `Record<string, {width, height}>` in insertion order. -/
abbrev DimTable := List (String × Dim)

/-- JS property read `m[k]`: the value stored under `k`, or `none` (undefined). -/
def jsGet (m : List (String × α)) (k : String) : Option α :=
  match m with
  | [] => none
  | (k', v) :: rest => if k' = k then some v else jsGet rest k

/-- JS spread-update `{ ...m, [k]: v }`: replace in place when the key is present,
append otherwise. -/
def jsInsert (m : List (String × α)) (k : String) (v : α) : List (String × α) :=
  if (jsGet m k).isSome then
    m.map (fun p => if p.1 = k then (k, v) else p)
  else
    m ++ [(k, v)]

/-- JS `delete m[k]`: remove the entry stored under `k`, keep the rest in order. -/
def jsErase (m : List (String × α)) (k : String) : List (String × α) :=
  match m with
  | [] => []
  | p :: rest => if p.1 = k then jsErase rest k else p :: jsErase rest k

/-- JS `Object.values(m)` (insertion order). -/
def jsValues (m : List (String × α)) : List α :=
  m.map Prod.snd

/-- The `parentId` field of a stored value, as the JS engine sees it:
`none` = the field is `undefined` (a `textOnly` object), `some none` = `null`,
`some (some p)` = the string `p`.  JS `===` on these values is `Option.decEq`. -/
def Entry.parentVal : Entry → Option (Option String)
  | .node d => some d.parentId
  | .textOnly _ => none

/-- The `id` field of a stored value.  For a `textOnly` object the field is
`undefined`; the program only reads `id` of values that passed a
`parentId === someString` filter, which a `textOnly` value never passes, so the
placeholder `""` is never observed. -/
def Entry.jsId : Entry → String
  | .node d => d.id
  | .textOnly _ => ""

/-- The `text` field of a stored value. -/
def Entry.jsText : Entry → String
  | .node d => d.text
  | .textOnly t => t

/-- Children enumeration used by `measureNode`, `getDescendants` and `navigate`:
`Object.values(nodes).filter(n => n.parentId === id).map(n => n.id)` —
insertion order, no sorting. -/
def childrenIds (nodes : Store) (id : String) : List String :=
  ((jsValues nodes).filter (fun e => e.parentVal = some (some id))).map Entry.jsId

/- ## Layout engine (`src/utils/treeLayout.ts`) -/

/-- Constant `H_GAP = 100` (horizontal gap between parent and child). -/
def H_GAP : ℚ := 100

/-- Constant `V_GAP = 20` (vertical gap between siblings). -/
def V_GAP : ℚ := 20

/-- Record `LayoutNode` from `src/types.ts`, as pushed into `flattenList`.
`data` is the raw store value `ctx.nodes[id]` (possibly `undefined`). -/
structure LayoutRect where
  id : String
  x : ℚ
  y : ℚ
  data : Option Entry
  width : ℚ
  height : ℚ
  depth : Nat
deriving DecidableEq

/-- A 2-D point. -/
structure Point where
  x : ℚ
  y : ℚ
deriving DecidableEq

/-- A connector pushed into `links`: parent-side `source`, child-side `target`. -/
structure Link where
  source : Point
  target : Point
deriving DecidableEq

/-- Record `CalculatedNode` from `treeLayout.ts` (the `x`/`y` fields, written only
during the position pass, are passed functionally there instead of being stored). -/
inductive CalcNode where
  | mk (id : String) (data : Option Entry) (width height : ℚ) (depth : Nat)
      (subtreeHeight childrenHeight : ℚ) (children : List CalcNode)

def CalcNode.id : CalcNode → String
  | .mk i _ _ _ _ _ _ _ => i

def CalcNode.data : CalcNode → Option Entry
  | .mk _ d _ _ _ _ _ _ => d

def CalcNode.width : CalcNode → ℚ
  | .mk _ _ w _ _ _ _ _ => w

def CalcNode.height : CalcNode → ℚ
  | .mk _ _ _ h _ _ _ _ => h

def CalcNode.depth : CalcNode → Nat
  | .mk _ _ _ _ d _ _ _ => d

def CalcNode.subtreeHeight : CalcNode → ℚ
  | .mk _ _ _ _ _ s _ _ => s

def CalcNode.childrenHeight : CalcNode → ℚ
  | .mk _ _ _ _ _ _ c _ => c

def CalcNode.children : CalcNode → List CalcNode
  | .mk _ _ _ _ _ _ _ cs => cs

/-- Measure pass (`measureNode` in `treeLayout.ts`): look up the node's dimensions
(default 200×50), enumerate children in store order, recursively measure them,
and compute `childrenHeight = Σ child.subtreeHeight + V_GAP·max(0, n−1)` and
`subtreeHeight = max(height, childrenHeight)`; a childless node gets
`subtreeHeight = height`, `childrenHeight = 0`.  (`Math.max(0, length - 1)` is
truncated `Nat` subtraction.) -/
def measureNode (fuel : Nat) (id : String) (depth : Nat)
    (nodes : Store) (dimensions : DimTable) : Option CalcNode :=
  match fuel with
  | 0 => none
  | fuel + 1 =>
    let nodeData := jsGet nodes id
    let dim := (jsGet dimensions id).getD ⟨200, 50⟩
    let childIds := childrenIds nodes id
    if childIds = [] then
      some (.mk id nodeData dim.width dim.height depth dim.height 0 [])
    else
      (childIds.mapM (fun cid => measureNode fuel cid (depth + 1) nodes dimensions)).map
        fun children =>
          let totalChildrenHeight := children.foldl (fun s c => s + c.subtreeHeight) 0
          let totalGap := ((children.length - 1 : ℕ) : ℚ) * V_GAP
          let childrenHeight := totalChildrenHeight + totalGap
          .mk id nodeData dim.width dim.height depth
            (max dim.height childrenHeight) childrenHeight children

/-- Position pass (`layoutNode` in `treeLayout.ts`), phrased over the sibling run
the `forEach` loop walks.  `layoutRun fuel cs x cursor src` lays out the nodes `cs`
left-aligned at `x`, the first one's band starting at `cursor`, each consuming
`subtreeHeight + V_GAP`.  Each node is centered in its band
(`top = bandCenter − height/2`), its children are laid out at `x + width + H_GAP`
with their stack centered on the node's center, and — when `src = some s`, i.e. the
run is a `forEach` over some parent's children — one link
`⟨s, (x, cursor + subtreeHeight/2)⟩` is pushed after the recursive call, exactly as
the source pushes child-subtree links first and the parent→child link afterwards.
The root call (`layoutNode(rootNode, 0, 0, …)`) is the run `[root]` with
`src = none`, which emits no link for the root.  Output order matches the source's
`flattenList` (pre-order) and `links` pushes. -/
def layoutRun (fuel : Nat) (cs : List CalcNode) (x cursor : ℚ) (src : Option Point) :
    Option (List LayoutRect × List Link) :=
  match fuel with
  | 0 => none
  | fuel + 1 =>
    match cs with
    | [] => some ([], [])
    | c :: rest => do
      let centerY := cursor + c.subtreeHeight / 2
      let nodeTop := centerY - c.height / 2
      let self : LayoutRect :=
        ⟨c.id, x, nodeTop, c.data, c.width, c.height, c.depth⟩
      let childX := x + c.width + H_GAP
      let childSrc : Point := ⟨x + c.width, nodeTop + c.height / 2⟩
      let (rs, ls) ← layoutRun fuel c.children childX (centerY - c.childrenHeight / 2)
        (some childSrc)
      let ownLink : List Link :=
        match src with
        | some s => [⟨s, ⟨x, cursor + c.subtreeHeight / 2⟩⟩]
        | none => []
      let (rs2, ls2) ← layoutRun fuel rest x (cursor + c.subtreeHeight + V_GAP) src
      some (self :: (rs ++ rs2), ls ++ ownLink ++ ls2)

/-- Result record of `calculateTreeLayout`. -/
structure LayoutResult where
  nodes : List LayoutRect
  links : List Link
  width : ℚ
  height : ℚ
deriving DecidableEq

/-- Full layout (`calculateTreeLayout` in `treeLayout.ts`): measure from the root,
position starting at (0,0), then fold the bounding box
`maxX = max(0, …, x + width)`, `maxY = max(0, …, y + height)`. -/
def calculateTreeLayout (fuel : Nat) (nodes : Store) (rootId : String)
    (dimensions : DimTable) : Option LayoutResult := do
  let rootNode ← measureNode fuel rootId 0 nodes dimensions
  let (layoutNodes, links) ← layoutRun fuel [rootNode] 0 0 none
  let maxX := layoutNodes.foldl (fun m n => max m (n.x + n.width)) 0
  let maxY := layoutNodes.foldl (fun m n => max m (n.y + n.height)) 0
  some ⟨layoutNodes, links, maxX, maxY⟩

/- ## Application state and mutations (`src/unnamed/part_001`) -/

/-- The React state of the `App` component: the node store, the focused id, and
the dimension table fed by `ResizeObserver` reports. -/
structure AppState where
  nodes : Store
  focusedNodeId : Option String
  nodeDimensions : DimTable
deriving DecidableEq

/-- `INITIAL_STATE.rootId`. -/
def initialRootId : String := "root"

/-- `INITIAL_STATE` of the app: the single root node, focused. -/
def initialState : AppState :=
  ⟨[("root", .node ⟨"root", none, "Central Topic"⟩)], some "root", []⟩

/-- `updateNodeText(id, text)`: `{ ...prev, [id]: { ...prev[id], text } }`.
When `id` is absent, spreading `undefined` stores the object `{ text }`. -/
def updateNodeText (id text : String) (s : AppState) : AppState :=
  { s with
    nodes := jsInsert s.nodes id
      (match jsGet s.nodes id with
        | some (.node d) => .node { d with text := text }
        | some (.textOnly _) => .textOnly text
        | none => .textOnly text) }

/-- `handleNodeResize(id, width, height)`: keep the table when an identical entry
already exists, otherwise store `{ width, height }` under `id` — with no check that
`id` names an existing node. -/
def handleNodeResize (id : String) (width height : ℚ) (s : AppState) : AppState :=
  { s with
    nodeDimensions :=
      match jsGet s.nodeDimensions id with
      | some d =>
        if d.width = width ∧ d.height = height then s.nodeDimensions
        else jsInsert s.nodeDimensions id ⟨width, height⟩
      | none => jsInsert s.nodeDimensions id ⟨width, height⟩ }

/-- `addChild(parentId)` with the generated fresh id made an explicit argument:
insert `{ id: newId, parentId, text: "" }` and focus it — with no check that
`parentId` names an existing node. -/
def addChild (newId parentId : String) (s : AppState) : AppState :=
  { s with
    nodes := jsInsert s.nodes newId (.node ⟨newId, some parentId, ""⟩),
    focusedNodeId := some newId }

/-- `addSibling(referenceId)` with the fresh id explicit.  Reading `.parentId` of a
missing reference throws (`none`).  A falsy `parentId` (root, or a `textOnly`
object's `undefined`) routes to `addChild(referenceId)`; otherwise the new node
shares the reference node's parent. -/
def addSibling (newId referenceId : String) (s : AppState) : Option AppState :=
  match jsGet s.nodes referenceId with
  | none => none
  | some refNode =>
    match refNode.parentVal with
    | some (some pid) =>
      some { s with
        nodes := jsInsert s.nodes newId (.node ⟨newId, some pid, ""⟩),
        focusedNodeId := some newId }
    | _ => some (addChild newId referenceId s)

/-- `getDescendants(rootId, allNodes)`: direct children first (store order), then
the concatenation of each child's descendant list. -/
def getDescendants (fuel : Nat) (rootId : String) (allNodes : Store) :
    Option (List String) :=
  match fuel with
  | 0 => none
  | fuel + 1 =>
    let children := childrenIds allNodes rootId
    (children.mapM (fun c => getDescendants fuel c allNodes)).map
      fun rests => children ++ rests.flatten

/-- `deleteNode(id)`: an early return when `id` is the root; a throw (`none`) when
`id` is absent; otherwise remove `id` and all its descendants from the store and
from the dimension table, and focus the parent when it is truthy and survives. -/
def deleteNode (fuel : Nat) (id : String) (s : AppState) : Option AppState :=
  if id = initialRootId then some s
  else
    match jsGet s.nodes id with
    | none => none
    | some nodeToDelete =>
      (getDescendants fuel id s.nodes).map fun descs =>
        let idsToDelete := id :: descs
        let newNodes := idsToDelete.foldl (fun m d => jsErase m d) s.nodes
        let newDims := idsToDelete.foldl (fun m d => jsErase m d) s.nodeDimensions
        let focus :=
          match nodeToDelete.parentVal with
          | some (some p) =>
            if (jsGet newNodes p).isSome then some p else s.focusedNodeId
          | _ => s.focusedNodeId
        ⟨newNodes, focus, newDims⟩

/- ## Focus navigation (`navigate` in `src/unnamed/part_001`) -/

inductive Direction where
  | up
  | down
  | left
  | right
deriving DecidableEq

/-- Code-point comparison on char lists, modelling `localeCompare` ascending order
on the ASCII ids this program uses. -/
def charListLe (a b : List Char) : Bool :=
  match a, b with
  | [], _ => true
  | _ :: _, [] => false
  | c :: cs, d :: ds =>
    if c.toNat < d.toNat then true
    else if d.toNat < c.toNat then false
    else charListLe cs ds

/-- String comparison used to model `a.id.localeCompare(b.id)` sorting. -/
def strLe (a b : String) : Bool :=
  charListLe a.data b.data

/-- Stable insertion of `a` into an already-sorted list. -/
def sortInsert (le : α → α → Bool) (a : α) : List α → List α
  | [] => [a]
  | b :: l => if le a b then a :: b :: l else b :: sortInsert le a l

/-- Stable sort modelling `Array.prototype.sort` with a total comparator. -/
def stableSort (le : α → α → Bool) : List α → List α
  | [] => []
  | a :: l => sortInsert le a (stableSort le l)

/-- Sibling list computed by `navigate` for `up`/`down`: all store values sharing
the current node's `parentId` (JS `===`), sorted by id (`localeCompare`). -/
def sortedSiblings (nodes : Store) (pv : Option (Option String)) : List Entry :=
  stableSort (fun a b => strLe a.jsId b.jsId)
    ((jsValues nodes).filter (fun e => e.parentVal = pv))

/-- JS `Array.prototype.findIndex`: index of the first match, `-1` when none. -/
def jsFindIndex (p : α → Bool) : List α → Int
  | [] => -1
  | a :: rest =>
    if p a then 0
    else
      let r := jsFindIndex p rest
      if r = -1 then -1 else r + 1

/-- `navigate(currentId, direction)`: `left` focuses the parent when truthy;
`right` focuses the first child in store order; `up`/`down` move one step inside
the id-sorted sibling list, out-of-range indices (including `-1`) doing nothing.
A missing `currentId` returns before any state change. -/
def navigate (currentId : String) (direction : Direction) (s : AppState) : AppState :=
  match jsGet s.nodes currentId with
  | none => s
  | some current =>
    match direction with
    | .left =>
      match current.parentVal with
      | some (some p) => { s with focusedNodeId := some p }
      | _ => s
    | .right =>
      match (jsValues s.nodes).filter (fun e => e.parentVal = some (some currentId)) with
      | [] => s
      | c :: _ => { s with focusedNodeId := some c.jsId }
    | .up | .down =>
      let siblings := sortedSiblings s.nodes current.parentVal
      let idx := jsFindIndex (fun e => e.jsId = currentId) siblings
      if idx = -1 then s
      else
        let nextIdx : Int := if direction = .down then idx + 1 else idx - 1
        if nextIdx < 0 then s
        else
          match siblings[nextIdx.toNat]? with
          | some e => { s with focusedNodeId := some e.jsId }
          | none => s

/- ## Specification-side predicates -/

/-- Per-node measure-pass specification (§4.2 of the spec): at every node of the
measured tree, width/height come from the dimension table (default 200×50); a
childless node has `subtreeHeight = height` and `childrenHeight = 0`; a node with
children has `childrenHeight = Σ child.subtreeHeight + V_GAP·(n−1)` and
`subtreeHeight = max(height, childrenHeight)`. -/
inductive MeasureInvariant (dims : DimTable) : CalcNode → Prop where
  | intro (id : String) (data : Option Entry) (depth : Nat) (sh chh : ℚ)
      (children : List CalcNode)
      (hleaf : children = [] → sh = ((jsGet dims id).getD ⟨200, 50⟩).height ∧ chh = 0)
      (hnode : children ≠ [] →
        chh = (children.map CalcNode.subtreeHeight).sum +
          ((children.length - 1 : ℕ) : ℚ) * V_GAP ∧
        sh = max ((jsGet dims id).getD ⟨200, 50⟩).height chh)
      (hch : ∀ c ∈ children, MeasureInvariant dims c) :
      MeasureInvariant dims
        (.mk id data ((jsGet dims id).getD ⟨200, 50⟩).width
          ((jsGet dims id).getD ⟨200, 50⟩).height depth sh chh children)

/-- All dimension entries are genuine sizes (non-negative). -/
def NonnegDims (dims : DimTable) : Prop :=
  ∀ p ∈ dims, 0 ≤ p.2.width ∧ 0 ≤ p.2.height

/-- The edges of a measured tree agree with the store: every child node's id is
one of the store's children (via `childrenIds`) of its parent's id, recursively. -/
inductive TreeEdges (nodes : Store) : CalcNode → Prop where
  | mk (id : String) (data : Option Entry) (w h : ℚ) (depth : Nat) (sh chh : ℚ)
      (children : List CalcNode)
      (hids : ∀ c ∈ children, CalcNode.id c ∈ childrenIds nodes id)
      (hts : ∀ c ∈ children, TreeEdges nodes c) :
      TreeEdges nodes (.mk id data w h depth sh chh children)

/-- Left-center point of a positioned rectangle. -/
def leftCenter (r : LayoutRect) : Point :=
  ⟨r.x, r.y + r.height / 2⟩

/-- Right-center point of a positioned rectangle. -/
def rightCenter (r : LayoutRect) : Point :=
  ⟨r.x + r.width, r.y + r.height / 2⟩

/-- The measured tree of the one-child scenario (root 200×50 with child 150×40). -/
def demoTree : CalcNode :=
  .mk "root" (some (.node ⟨"root", none, "Central Topic"⟩)) 200 50 0 50 40
    [.mk "c" (some (.node ⟨"c", some "root", "child"⟩)) 150 40 1 40 0 []]

/-- Every stored value is a well-formed `NodeData` whose `id` field equals its key. -/
def entriesWellFormed (nodes : Store) : Bool :=
  nodes.all fun p =>
    match p.2 with
    | .node d => d.id == p.1
    | .textOnly _ => false

/-- Exactly one stored node has `parentId = null`. -/
def singleNullParent (nodes : Store) : Bool :=
  (nodes.countP fun p => p.2.parentVal == some none) == 1

/-- Every stored node's non-null `parentId` resolves to an existing key. -/
def parentsResolve (nodes : Store) : Bool :=
  nodes.all fun p =>
    match p.2.parentVal with
    | some (some pid) => (jsGet nodes pid).isSome
    | _ => true

/-- One structural mutation of the node store, with the generated fresh id made
explicit. -/
inductive Op where
  | child (newId parentId : String)
  | sibling (newId referenceId : String)
  | del (id : String)

/-- Apply one operation; `none` models a thrown `TypeError` or an exhausted
recursion budget. -/
def applyOp (fuel : Nat) : Op → AppState → Option AppState
  | .child n p, s => some (addChild n p s)
  | .sibling n r, s => addSibling n r s
  | .del i, s => deleteNode fuel i s

/-- An operation is well-targeted in a state when the ids it references exist and
the generated id is fresh (as holds for every call the UI layer can make). -/
def wellTargeted : Op → AppState → Bool
  | .child n p, s => (jsGet s.nodes p).isSome && (jsGet s.nodes n).isNone
  | .sibling n r, s => (jsGet s.nodes r).isSome && (jsGet s.nodes n).isNone
  | .del i, s => (jsGet s.nodes i).isSome

/-- A completed run of well-targeted operations from `s` to `s'`. -/
inductive RunWT (fuel : Nat) : List Op → AppState → AppState → Prop where
  | nil (s : AppState) : RunWT fuel [] s s
  | cons (op : Op) (ops : List Op) (s s₁ s₂ : AppState)
      (hwt : wellTargeted op s = true)
      (happ : applyOp fuel op s = some s₁)
      (hrun : RunWT fuel ops s₁ s₂) : RunWT fuel (op :: ops) s s₂

/-- Internal strengthened store invariant: keys are distinct, entries are
well-formed, the unique null-parent node is the root key, parents resolve, and a
rank function witnesses acyclicity. -/
def StoreInv (nodes : Store) : Prop :=
  (nodes.map Prod.fst).Nodup ∧
  entriesWellFormed nodes = true ∧
  (∃ d, jsGet nodes initialRootId = some (.node d) ∧ d.parentId = none) ∧
  (∀ p ∈ nodes, p.2.parentVal = some none → p.1 = initialRootId) ∧
  parentsResolve nodes = true ∧
  ∃ rank : String → Nat, ∀ p ∈ nodes, ∀ pid,
    p.2.parentVal = some (some pid) → rank pid < rank p.1

/- ## Concrete stores used by counterexamples and witnesses -/

/-- Root with the two children inserted in id order `a`, `b`. -/
def storeAB : Store :=
  [("root", .node ⟨"root", none, "Central Topic"⟩),
   ("a", .node ⟨"a", some "root", "A"⟩),
   ("b", .node ⟨"b", some "root", "B"⟩)]

/-- The same three nodes with the children inserted in the order `b`, `a`. -/
def storeBA : Store :=
  [("root", .node ⟨"root", none, "Central Topic"⟩),
   ("b", .node ⟨"b", some "root", "B"⟩),
   ("a", .node ⟨"a", some "root", "A"⟩)]

/-- Root, children `a`,`b`, grandchild `c` under `a`, with `c` inserted before `b`. -/
def storeInterleaved : Store :=
  [("root", .node ⟨"root", none, "Central Topic"⟩),
   ("a", .node ⟨"a", some "root", "A"⟩),
   ("c", .node ⟨"c", some "a", "C"⟩),
   ("b", .node ⟨"b", some "root", "B"⟩)]

/-- The same four nodes with `c` inserted last: per-id lookups and per-id children
lists agree with `storeInterleaved` although the lists differ. -/
def storeSequential : Store :=
  [("root", .node ⟨"root", none, "Central Topic"⟩),
   ("a", .node ⟨"a", some "root", "A"⟩),
   ("b", .node ⟨"b", some "root", "B"⟩),
   ("c", .node ⟨"c", some "a", "C"⟩)]

/-- Store of the spec's one-child scenario: root plus child `c`. -/
def demoStore : Store :=
  [("root", .node ⟨"root", none, "Central Topic"⟩),
   ("c", .node ⟨"c", some "root", "child"⟩)]

/-- Dimensions of the one-child scenario: root 200×50, `c` 150×40. -/
def demoDims : DimTable := [("root", ⟨200, 50⟩), ("c", ⟨150, 40⟩)]

/-- Expected layout of the one-child scenario: root at (0,0), `c` at (300,5), one
connector from (200,25) to (300,25), bounding box 450×50. -/
def demoResult : LayoutResult :=
  ⟨[⟨"root", 0, 0, some (.node ⟨"root", none, "Central Topic"⟩), 200, 50, 0⟩,
    ⟨"c", 300, 5, some (.node ⟨"c", some "root", "child"⟩), 150, 40, 1⟩],
   [⟨⟨200, 25⟩, ⟨300, 25⟩⟩], 450, 50⟩

/- ## Store algebra -/

theorem jsInsert_cons (p : String × α) (rest : List (String × α)) (k : String) (v : α) :
    jsInsert (p :: rest) k v =
      if p.1 = k then (k, v) :: rest.map (fun q => if q.1 = k then (k, v) else q)
      else p :: jsInsert rest k v := by
  by_cases hk : p.1 = k
  · simp [jsInsert, jsGet, hk]
  · rw [if_neg hk, jsInsert, jsInsert, jsGet, if_neg hk]
    by_cases h2 : (jsGet rest k).isSome
    · rw [if_pos h2, if_pos h2, List.map_cons, if_neg hk]
    · rw [if_neg h2, if_neg h2, List.cons_append]

theorem jsGet_map_replace_ne (m : List (String × α)) (k k' : String) (v : α)
    (h : k' ≠ k) :
    jsGet (m.map (fun q => if q.1 = k then (k, v) else q)) k' = jsGet m k' := by
  induction m with
  | nil => simp [jsGet]
  | cons p rest ih =>
    rw [List.map_cons]
    by_cases hk : p.1 = k
    · rw [if_pos hk, jsGet, jsGet, if_neg (fun hh : k = k' => h hh.symm),
        if_neg (fun hh : p.1 = k' => h (by rw [← hh, hk]))]
      exact ih
    · rw [if_neg hk, jsGet, jsGet]
      by_cases hp : p.1 = k'
      · rw [if_pos hp, if_pos hp]
      · rw [if_neg hp, if_neg hp]
        exact ih

theorem jsGet_insert_self (m : List (String × α)) (k : String) (v : α) :
    jsGet (jsInsert m k v) k = some v := by
  induction m with
  | nil => simp [jsInsert, jsGet]
  | cons p rest ih =>
    rw [jsInsert_cons]
    by_cases hk : p.1 = k
    · rw [if_pos hk, jsGet, if_pos rfl]
    · rw [if_neg hk, jsGet, if_neg hk]
      exact ih

theorem jsGet_insert_ne (m : List (String × α)) (k k' : String) (v : α)
    (h : k' ≠ k) : jsGet (jsInsert m k v) k' = jsGet m k' := by
  induction m with
  | nil => simp [jsInsert, jsGet, Ne.symm h]
  | cons p rest ih =>
    rw [jsInsert_cons]
    by_cases hk : p.1 = k
    · rw [if_pos hk, jsGet, if_neg (fun hh : k = k' => h hh.symm),
        jsGet_map_replace_ne _ _ _ _ h, jsGet,
        if_neg (fun hh : p.1 = k' => h (by rw [← hh, hk]))]
    · rw [if_neg hk, jsGet, jsGet]
      by_cases hp : p.1 = k'
      · rw [if_pos hp, if_pos hp]
      · rw [if_neg hp, if_neg hp]
        exact ih

theorem jsGet_eq_none_iff (m : List (String × α)) (k : String) :
    jsGet m k = none ↔ ∀ p ∈ m, p.1 ≠ k := by
  induction m with
  | nil => simp [jsGet]
  | cons p rest ih =>
    rw [jsGet]
    by_cases hk : p.1 = k
    · simp [hk]
    · simp [hk, ih]

theorem jsGet_mem (m : List (String × α)) (k : String) (v : α)
    (h : jsGet m k = some v) : (k, v) ∈ m := by
  induction m with
  | nil => simp [jsGet] at h
  | cons p rest ih =>
    rw [jsGet] at h
    by_cases hk : p.1 = k
    · rw [if_pos hk] at h
      have hv : p.2 = v := Option.some.inj h
      have hp : p = (k, v) := Prod.ext hk hv
      rw [← hp]
      exact List.mem_cons_self _ _
    · rw [if_neg hk] at h
      exact List.mem_cons_of_mem _ (ih h)

theorem mem_jsGet_of_nodup (m : List (String × α)) (k : String) (v : α)
    (hnd : (m.map Prod.fst).Nodup) (h : (k, v) ∈ m) : jsGet m k = some v := by
  induction m with
  | nil => simp at h
  | cons p rest ih =>
    rw [List.map_cons, List.nodup_cons] at hnd
    rcases List.mem_cons.mp h with h1 | h1
    · rw [← h1, jsGet, if_pos rfl]
    · rw [jsGet]
      by_cases hk : p.1 = k
      · exact absurd (hk ▸ List.mem_map_of_mem Prod.fst h1) hnd.1
      · rw [if_neg hk]
        exact ih hnd.2 h1

theorem jsGet_erase (m : List (String × α)) (k k' : String) :
    jsGet (jsErase m k) k' = if k' = k then none else jsGet m k' := by
  induction m with
  | nil => simp [jsGet, jsErase]
  | cons p rest ih =>
    rw [jsErase]
    by_cases hk : p.1 = k
    · rw [if_pos hk, ih]
      by_cases hk' : k' = k
      · rw [if_pos hk', if_pos hk']
      · rw [if_neg hk', if_neg hk', jsGet,
          if_neg (fun hh : p.1 = k' => hk' (by rw [← hh, hk]))]
    · rw [if_neg hk, jsGet, jsGet]
      by_cases hp : p.1 = k'
      · rw [if_pos hp, if_pos hp, if_neg (fun hh : k' = k => hk (by rw [hp, hh]))]
      · rw [if_neg hp, if_neg hp, ih]

theorem mapM_option_congr {α β : Type} (f g : α → Option β) (l : List α)
    (h : ∀ x ∈ l, f x = g x) : l.mapM f = l.mapM g := by
  induction l with
  | nil => rfl
  | cons a l ih =>
    rw [List.mapM_cons, List.mapM_cons, h a (List.mem_cons_self a l),
      ih (fun x hx => h x (List.mem_cons_of_mem a hx))]

theorem mem_childrenIds (nodes : Store) (id c : String)
    (h : c ∈ childrenIds nodes id) : ∃ p ∈ nodes, Entry.jsId p.2 = c := by
  rw [childrenIds] at h
  rcases List.mem_map.mp h with ⟨e, he, hc⟩
  rcases List.mem_filter.mp he with ⟨he2, _⟩
  rcases List.mem_map.mp he2 with ⟨p, hp, hpe⟩
  exact ⟨p, hp, hpe ▸ hc⟩

/-- The measure pass reads the dimension table only at the root id and at ids of
stored nodes; it is unchanged by edits to the table away from those ids. -/
theorem measureNode_dims_congr (g : String) (nodes : Store)
    (hids : ∀ p ∈ nodes, Entry.jsId p.2 ≠ g) (dims dims' : DimTable)
    (hd : ∀ i, i ≠ g → jsGet dims' i = jsGet dims i) :
    ∀ fuel id depth, id ≠ g →
      measureNode fuel id depth nodes dims' = measureNode fuel id depth nodes dims := by
  intro fuel
  induction fuel with
  | zero => intro id depth _; rfl
  | succ fuel ih =>
    intro id depth hid
    rw [measureNode, measureNode, hd id hid]
    rw [mapM_option_congr (fun cid => measureNode fuel cid (depth + 1) nodes dims')
      (fun cid => measureNode fuel cid (depth + 1) nodes dims) (childrenIds nodes id)
      (fun c hc => by
        rcases mem_childrenIds nodes id c hc with ⟨p, hp, hpc⟩
        exact ih c (depth + 1) (hpc ▸ hids p hp))]

/- ## Claim C8: deleting the root is a protected no-op -/

/-- Claim C8: `deleteNode` on the root id returns before touching anything: the
node store, the dimension table and the focus are all left unchanged (the attempt
does nothing visible). -/
theorem root_delete_is_noop (fuel : Nat) (s : AppState) :
    deleteNode fuel initialRootId s = some s := by
  simp [deleteNode]

/- ## Claim C9: the layout pass is a pure, deterministic function of its inputs -/

/-- Claim C9: `calculateTreeLayout` depends on nothing but its arguments — two
calls on the same node store, root id and dimension table return the same result:
same positioned nodes in the same order, same connectors, same bounding box. -/
theorem layout_deterministic (fuel : Nat) (nodes : Store) (rootId : String)
    (dims : DimTable) (res₁ res₂ : LayoutResult)
    (h₁ : calculateTreeLayout fuel nodes rootId dims = some res₁)
    (h₂ : calculateTreeLayout fuel nodes rootId dims = some res₂) :
    res₁ = res₂ ∧ res₁.nodes = res₂.nodes ∧ res₁.links = res₂.links ∧
      res₁.width = res₂.width ∧ res₁.height = res₂.height := by
  have h : res₁ = res₂ := Option.some.inj (h₁.symm.trans h₂)
  exact ⟨h, by rw [h], by rw [h], by rw [h], by rw [h]⟩

/-- Witness for C9 at the single-root initial store. -/
theorem layout_deterministic_witness :
    (⟨[⟨"root", 0, 0, some (.node ⟨"root", none, "Central Topic"⟩), 200, 50, 0⟩],
        [], 200, 50⟩ : LayoutResult) =
      ⟨[⟨"root", 0, 0, some (.node ⟨"root", none, "Central Topic"⟩), 200, 50, 0⟩],
        [], 200, 50⟩ := by
  have hconc : calculateTreeLayout 2 initialState.nodes initialRootId [] =
      some ⟨[⟨"root", 0, 0, some (.node ⟨"root", none, "Central Topic"⟩), 200, 50, 0⟩],
        [], 200, 50⟩ := by
    simp [calculateTreeLayout, measureNode, layoutRun, childrenIds, jsValues, jsGet,
      Entry.parentVal, Entry.jsId, CalcNode.id, CalcNode.data, CalcNode.width,
      CalcNode.height, CalcNode.depth, CalcNode.subtreeHeight, CalcNode.childrenHeight,
      CalcNode.children, H_GAP, V_GAP, max_def, List.mapM, List.mapM.loop,
      initialState, initialRootId]
  exact (layout_deterministic 2 initialState.nodes initialRootId [] _ _ hconc hconc).1

/- ## Claim C4: operations on missing ids do not fail — they mutate the store -/

/-- Counterexample to claim C4: on the initial store, `addChild` under the absent
parent id "ghost" changes the store (no `NotFound` failure, no unchanged store),
and `updateNodeText` of the absent id "ghost" also changes the store (it files a
text-only record under that id). -/
theorem missing_id_counterexample :
    jsGet initialState.nodes "ghost" = none ∧
    (addChild "n1" "ghost" initialState).nodes ≠ initialState.nodes ∧
    (updateNodeText "ghost" "hi" initialState).nodes ≠ initialState.nodes := by
  decide

/-- Claim C4 amended: neither `addChild` nor `updateNodeText` checks that the id
it is given exists.  `addChild` with an absent `parentId` still inserts the new
node (pointing at the nonexistent parent) and `updateNodeText` with an absent id
inserts an object holding only the text; in both cases the store is modified and
no error of any kind is raised. -/
theorem missing_id_mutates (s : AppState) (newId parentId id text : String)
    (hp : jsGet s.nodes parentId = none)
    (hn : jsGet s.nodes newId = none)
    (hid : jsGet s.nodes id = none) :
    jsGet (addChild newId parentId s).nodes newId =
      some (.node ⟨newId, some parentId, ""⟩) ∧
    (addChild newId parentId s).nodes ≠ s.nodes ∧
    jsGet (updateNodeText id text s).nodes id = some (.textOnly text) ∧
    (updateNodeText id text s).nodes ≠ s.nodes := by
  have hadd : (addChild newId parentId s).nodes =
      jsInsert s.nodes newId (.node ⟨newId, some parentId, ""⟩) := rfl
  have hupd : (updateNodeText id text s).nodes =
      jsInsert s.nodes id (.textOnly text) := by
    rw [updateNodeText]
    simp only [hid]
  refine ⟨?_, ?_, ?_, ?_⟩
  · rw [hadd]
    exact jsGet_insert_self _ _ _
  · intro heq
    have h1 := jsGet_insert_self s.nodes newId (Entry.node ⟨newId, some parentId, ""⟩)
    rw [hadd] at heq
    rw [heq] at h1
    rw [hn] at h1
    exact Option.noConfusion h1
  · rw [hupd]
    exact jsGet_insert_self _ _ _
  · intro heq
    have h1 := jsGet_insert_self s.nodes id (Entry.textOnly text)
    rw [hupd] at heq
    rw [heq] at h1
    rw [hid] at h1
    exact Option.noConfusion h1

/-- Witness for the amended C4 at the initial store. -/
theorem missing_id_mutates_witness :
    jsGet (addChild "n1" "ghost" initialState).nodes "n1" =
      some (.node ⟨"n1", some "ghost", ""⟩) ∧
    (addChild "n1" "ghost" initialState).nodes ≠ initialState.nodes ∧
    jsGet (updateNodeText "gone" "hi" initialState).nodes "gone" =
      some (.textOnly "hi") ∧
    (updateNodeText "gone" "hi" initialState).nodes ≠ initialState.nodes :=
  missing_id_mutates initialState "n1" "ghost" "gone" "hi"
    (by decide) (by decide) (by decide)

/- ## Claim C2: correctness of the measure pass -/

theorem foldl_add_map (l : List CalcNode) (a : ℚ) :
    l.foldl (fun s c => s + c.subtreeHeight) a =
      a + (l.map CalcNode.subtreeHeight).sum := by
  induction l generalizing a with
  | nil => simp
  | cons c l ih =>
    rw [List.foldl_cons, ih, List.map_cons, List.sum_cons]
    ring

theorem mapM_option_eq_some {α β : Type} (f : α → Option β) :
    ∀ (l : List α) (ys : List β), l.mapM f = some ys →
      List.Forall₂ (fun x y => f x = some y) l ys := by
  intro l
  induction l with
  | nil =>
    intro ys h
    simp only [List.mapM_nil, pure, Option.some.injEq] at h
    rw [← h]
    exact List.Forall₂.nil
  | cons a l ih =>
    intro ys h
    rw [List.mapM_cons] at h
    cases hfa : f a with
    | none => rw [hfa] at h; simp at h
    | some b =>
      rw [hfa] at h
      cases hml : l.mapM f with
      | none => rw [hml] at h; simp at h
      | some bs =>
        rw [hml] at h
        simp only [Option.bind_eq_bind, Option.some_bind, pure, Option.some.injEq] at h
        rw [← h]
        exact List.Forall₂.cons hfa (ih bs hml)

theorem forall₂_mem_right {α β : Type} {R : α → β → Prop} {l : List α} {ys : List β}
    (h : List.Forall₂ R l ys) : ∀ y ∈ ys, ∃ x ∈ l, R x y := by
  induction h with
  | nil => intro y hy; exact absurd hy (List.not_mem_nil y)
  | cons hr _ ih =>
    intro y hy
    rcases List.mem_cons.mp hy with hy1 | hy1
    · exact ⟨_, List.mem_cons_self _ _, hy1 ▸ hr⟩
    · rcases ih y hy1 with ⟨x, hx, hxy⟩
      exact ⟨x, List.mem_cons_of_mem _ hx, hxy⟩

/-- Claim C2: every tree the measure pass returns satisfies the spec's formulas at
every node — width/height from the dimension table (default 200×50); a childless
node has `subtreeHeight = height`; a node with n ≥ 1 children has
`childrenHeight = Σ subtreeHeight + 20·(n−1)` and
`subtreeHeight = max(height, childrenHeight)`. -/
theorem measure_invariant (fuel : Nat) : ∀ (id : String) (depth : Nat)
    (nodes : Store) (dims : DimTable) (t : CalcNode),
    measureNode fuel id depth nodes dims = some t → MeasureInvariant dims t := by
  induction fuel with
  | zero =>
    intro id depth nodes dims t h
    rw [measureNode] at h
    exact Option.noConfusion h
  | succ fuel ih =>
    intro id depth nodes dims t h
    rw [measureNode] at h
    by_cases hc : childrenIds nodes id = []
    · rw [if_pos hc] at h
      have ht := Option.some.inj h
      rw [← ht]
      exact MeasureInvariant.intro id (jsGet nodes id) depth _ 0 []
        (fun _ => ⟨rfl, rfl⟩) (fun hne => absurd rfl hne)
        (fun c hcm => absurd hcm (List.not_mem_nil c))
    · rw [if_neg hc] at h
      cases hm : (childrenIds nodes id).mapM
          (fun cid => measureNode fuel cid (depth + 1) nodes dims) with
      | none => rw [hm] at h; exact Option.noConfusion h
      | some children =>
        rw [hm, Option.map_some'] at h
        have ht := Option.some.inj h
        rw [← ht]
        have hall := mapM_option_eq_some _ _ _ hm
        have hne : children ≠ [] := by
          intro hnil
          have hlen := List.Forall₂.length_eq hall
          rw [hnil, List.length_nil] at hlen
          exact hc (List.eq_nil_of_length_eq_zero hlen)
        exact MeasureInvariant.intro id (jsGet nodes id) depth _ _ children
          (fun hcc => absurd hcc hne)
          (fun _ => ⟨by rw [foldl_add_map, zero_add], rfl⟩)
          (fun c hcm => by
            rcases forall₂_mem_right hall c hcm with ⟨x, _, hx⟩
            exact ih x (depth + 1) nodes dims c hx)

/-- Witness for C2 at the one-child scenario store. -/
theorem measure_invariant_witness :
    MeasureInvariant demoDims
      (.mk "root" (some (.node ⟨"root", none, "Central Topic"⟩)) 200 50 0 50 40
        [.mk "c" (some (.node ⟨"c", some "root", "child"⟩)) 150 40 1 40 0 []]) :=
  measure_invariant 10 "root" 0 demoStore demoDims _ (by
    simp [measureNode, childrenIds, jsValues, jsGet, demoStore, demoDims,
      Entry.parentVal, Entry.jsId, CalcNode.subtreeHeight, max_def,
      List.mapM, List.mapM.loop]
    norm_num)

/- ## Claim C3: connector endpoints -/

theorem layoutRun_nil_eq (fuel : Nat) (x cursor : ℚ) (src : Option Point) :
    layoutRun (fuel + 1) [] x cursor src = some ([], []) := rfl

theorem layoutRun_cons_eq (fuel : Nat) (c : CalcNode) (rest : List CalcNode)
    (x cursor : ℚ) (src : Option Point) :
    layoutRun (fuel + 1) (c :: rest) x cursor src =
      (layoutRun fuel c.children (x + c.width + H_GAP)
          (cursor + c.subtreeHeight / 2 - c.childrenHeight / 2)
          (some ⟨x + c.width, cursor + c.subtreeHeight / 2 - c.height / 2 + c.height / 2⟩)).bind
        fun rl1 =>
          (layoutRun fuel rest x (cursor + c.subtreeHeight + V_GAP) src).bind
            fun rl2 =>
              some (⟨c.id, x, cursor + c.subtreeHeight / 2 - c.height / 2, c.data,
                  c.width, c.height, c.depth⟩ :: (rl1.1 ++ rl2.1),
                rl1.2 ++ (match src with
                  | some s => [⟨s, ⟨x, cursor + c.subtreeHeight / 2⟩⟩]
                  | none => []) ++ rl2.2) := rfl

theorem TreeEdges.inv (nodes : Store) (t : CalcNode) (h : TreeEdges nodes t) :
    (∀ ch ∈ t.children, CalcNode.id ch ∈ childrenIds nodes t.id) ∧
    (∀ ch ∈ t.children, TreeEdges nodes ch) := by
  cases h with
  | mk id data w hh depth sh chh children hids hts =>
    constructor
    · intro ch hch
      simp only [CalcNode.children] at hch
      simp only [CalcNode.id]
      exact hids ch hch
    · intro ch hch
      simp only [CalcNode.children] at hch
      exact hts ch hch

/-- The measure pass builds the tree along the store's own child relation: the
returned node carries the requested id, and every child's id is one of the
store's `childrenIds` of its parent's id, recursively. -/
theorem measureNode_edges (fuel : Nat) : ∀ (id : String) (depth : Nat)
    (nodes : Store) (dims : DimTable) (t : CalcNode),
    measureNode fuel id depth nodes dims = some t →
    CalcNode.id t = id ∧ TreeEdges nodes t := by
  induction fuel with
  | zero =>
    intro id depth nodes dims t h
    rw [measureNode] at h
    exact Option.noConfusion h
  | succ fuel ih =>
    intro id depth nodes dims t h
    rw [measureNode] at h
    by_cases hc : childrenIds nodes id = []
    · rw [if_pos hc] at h
      have ht := Option.some.inj h
      rw [← ht]
      exact ⟨rfl, TreeEdges.mk id _ _ _ depth _ 0 []
        (fun c hc' => absurd hc' (List.not_mem_nil c))
        (fun c hc' => absurd hc' (List.not_mem_nil c))⟩
    · rw [if_neg hc] at h
      cases hm : (childrenIds nodes id).mapM
          (fun cid => measureNode fuel cid (depth + 1) nodes dims) with
      | none => rw [hm] at h; exact Option.noConfusion h
      | some children =>
        rw [hm, Option.map_some'] at h
        have ht := Option.some.inj h
        rw [← ht]
        have hall := mapM_option_eq_some _ _ _ hm
        refine ⟨rfl, TreeEdges.mk id _ _ _ depth _ _ children ?_ ?_⟩
        · intro c hcm
          rcases forall₂_mem_right hall c hcm with ⟨cid, hcid, hx⟩
          rw [(ih cid (depth + 1) nodes dims c hx).1]
          exact hcid
        · intro c hcm
          rcases forall₂_mem_right hall c hcm with ⟨cid, _, hx⟩
          exact (ih cid (depth + 1) nodes dims c hx).2

/-- Every emitted link joins a parent to one of that parent's own children: its
source is either the run's inherited source point (and its target the left-center
of a top-level rectangle of the run), or the right-center of a rectangle `p` of
the run whose targeted rectangle `c` satisfies `c.id ∈ childrenIds nodes p.id`. -/
theorem layoutRun_link_edges (nodes : Store) (fuel : Nat) :
    ∀ (cs : List CalcNode) (x cursor : ℚ) (src : Option Point)
      (rs : List LayoutRect) (ls : List Link),
      (∀ c ∈ cs, TreeEdges nodes c) →
      layoutRun fuel cs x cursor src = some (rs, ls) →
      ∀ l ∈ ls,
        (∃ s0, src = some s0 ∧ l.source = s0 ∧
          ∃ c ∈ cs, ∃ r ∈ rs, r.id = CalcNode.id c ∧ l.target = leftCenter r) ∨
        (∃ p ∈ rs, ∃ c ∈ rs, l.source = rightCenter p ∧ l.target = leftCenter c ∧
          c.id ∈ childrenIds nodes p.id) := by
  induction fuel with
  | zero =>
    intro cs x cursor src rs ls _ h
    rw [layoutRun] at h
    exact Option.noConfusion h
  | succ fuel ih =>
    intro cs x cursor src rs ls hedge h
    cases cs with
    | nil =>
      rw [layoutRun_nil_eq] at h
      have hls : ls = [] := (congrArg Prod.snd (Option.some.inj h)).symm
      rw [hls]
      intro l hl
      exact absurd hl (List.not_mem_nil l)
    | cons c rest =>
      rw [layoutRun_cons_eq] at h
      cases h1 : layoutRun fuel c.children (x + c.width + H_GAP)
          (cursor + c.subtreeHeight / 2 - c.childrenHeight / 2)
          (some ⟨x + c.width, cursor + c.subtreeHeight / 2 - c.height / 2 + c.height / 2⟩) with
      | none => rw [h1] at h; exact Option.noConfusion h
      | some rl1 =>
        rw [h1] at h
        cases h2 : layoutRun fuel rest x (cursor + c.subtreeHeight + V_GAP) src with
        | none =>
          rw [h2] at h
          exact Option.noConfusion h
        | some rl2 =>
          rw [h2] at h
          simp only [Option.some_bind] at h
          have hp := Option.some.inj h
          have hrs := (congrArg Prod.fst hp).symm
          have hls := (congrArg Prod.snd hp).symm
          simp only at hrs hls
          have hedgec := hedge c (List.mem_cons_self _ _)
          have ihl := ih c.children (x + c.width + H_GAP)
            (cursor + c.subtreeHeight / 2 - c.childrenHeight / 2)
            (some ⟨x + c.width, cursor + c.subtreeHeight / 2 - c.height / 2 + c.height / 2⟩)
            rl1.1 rl1.2 (TreeEdges.inv nodes c hedgec).2 h1
          have ihr := ih rest x (cursor + c.subtreeHeight + V_GAP) src rl2.1 rl2.2
            (fun c' hc' => hedge c' (List.mem_cons_of_mem _ hc')) h2
          set self : LayoutRect := ⟨c.id, x, cursor + c.subtreeHeight / 2 - c.height / 2,
            c.data, c.width, c.height, c.depth⟩ with hself
          have hselfmem : self ∈ rs := by
            rw [hrs]
            exact List.mem_cons_self _ _
          have hsub1 : ∀ r ∈ rl1.1, r ∈ rs := by
            intro r hr
            rw [hrs]
            exact List.mem_cons_of_mem _ (List.mem_append_left _ hr)
          have hsub2 : ∀ r ∈ rl2.1, r ∈ rs := by
            intro r hr
            rw [hrs]
            exact List.mem_cons_of_mem _ (List.mem_append_right _ hr)
          intro l hl
          rw [hls] at hl
          rcases List.mem_append.mp hl with hl1 | hl2
          · rcases List.mem_append.mp hl1 with hla | hlb
            · rcases ihl l hla with
                ⟨s0, hs0, hsrc, ch, hch, r, hr, hrid, htgt⟩ |
                ⟨p, hp1, c', hc1, hsrc, htgt, hedge'⟩
              · right
                refine ⟨self, hselfmem, r, hsub1 r hr, ?_, htgt, ?_⟩
                · have hs0eq : s0 = ⟨x + c.width,
                      cursor + c.subtreeHeight / 2 - c.height / 2 + c.height / 2⟩ :=
                    (Option.some.inj hs0).symm
                  rw [hsrc, hs0eq, rightCenter, hself]
                · rw [hrid]
                  exact (TreeEdges.inv nodes c hedgec).1 ch hch
              · exact Or.inr ⟨p, hsub1 p hp1, c', hsub1 c' hc1, hsrc, htgt, hedge'⟩
            · cases hsrcv : src with
              | none => rw [hsrcv] at hlb; exact absurd hlb (List.not_mem_nil l)
              | some s =>
                rw [hsrcv] at hlb
                have hleq : l = ⟨s, ⟨x, cursor + c.subtreeHeight / 2⟩⟩ :=
                  List.mem_singleton.mp hlb
                left
                refine ⟨s, rfl, by rw [hleq], c, List.mem_cons_self _ _,
                  self, hselfmem, rfl, ?_⟩
                rw [hleq, leftCenter, hself]
                show (⟨x, cursor + c.subtreeHeight / 2⟩ : Point) = _
                rw [Point.mk.injEq]
                exact ⟨rfl, by ring⟩
          · rcases ihr l hl2 with
              ⟨s0, hs0, hsrc, c', hc', r, hr, hrid, htgt⟩ |
              ⟨p, hp1, c', hc1, hsrc, htgt, hedge'⟩
            · exact Or.inl ⟨s0, hs0, hsrc, c', List.mem_cons_of_mem _ hc',
                r, hsub2 r hr, hrid, htgt⟩
            · exact Or.inr ⟨p, hsub2 p hp1, c', hsub2 c' hc1, hsrc, htgt, hedge'⟩

/-- In a run below a parent (`src = some`), the link targets are exactly the
left-centers of the run's rectangles, one link per rectangle. -/
theorem layoutRun_targets_perm (fuel : Nat) : ∀ (cs : List CalcNode) (x cursor : ℚ)
    (s0 : Point) (rs : List LayoutRect) (ls : List Link),
    layoutRun fuel cs x cursor (some s0) = some (rs, ls) →
    (ls.map Link.target).Perm (rs.map leftCenter) := by
  induction fuel with
  | zero =>
    intro cs x cursor s0 rs ls h
    rw [layoutRun] at h
    exact Option.noConfusion h
  | succ fuel ih =>
    intro cs x cursor s0 rs ls h
    cases cs with
    | nil =>
      rw [layoutRun_nil_eq] at h
      have hp := Option.some.inj h
      have hrs : rs = [] := (congrArg Prod.fst hp).symm
      have hls : ls = [] := (congrArg Prod.snd hp).symm
      rw [hls, hrs]
      exact List.Perm.refl _
    | cons c rest =>
      rw [layoutRun_cons_eq] at h
      cases h1 : layoutRun fuel c.children (x + c.width + H_GAP)
          (cursor + c.subtreeHeight / 2 - c.childrenHeight / 2)
          (some ⟨x + c.width, cursor + c.subtreeHeight / 2 - c.height / 2 + c.height / 2⟩) with
      | none => rw [h1] at h; exact Option.noConfusion h
      | some rl1 =>
        rw [h1] at h
        cases h2 : layoutRun fuel rest x (cursor + c.subtreeHeight + V_GAP) (some s0) with
        | none => rw [h2] at h; exact Option.noConfusion h
        | some rl2 =>
          rw [h2] at h
          simp only [Option.some_bind] at h
          have hp := Option.some.inj h
          have hrs := (congrArg Prod.fst hp).symm
          have hls := (congrArg Prod.snd hp).symm
          simp only at hrs hls
          have p1 := ih c.children (x + c.width + H_GAP)
            (cursor + c.subtreeHeight / 2 - c.childrenHeight / 2) _ rl1.1 rl1.2 h1
          have p2 := ih rest x (cursor + c.subtreeHeight + V_GAP) s0 rl2.1 rl2.2 h2
          rw [hls, hrs]
          simp only [List.map_append, List.map_cons, List.map_nil]
          have hmid : (⟨x, cursor + c.subtreeHeight / 2⟩ : Point) =
              leftCenter ⟨c.id, x, cursor + c.subtreeHeight / 2 - c.height / 2,
                c.data, c.width, c.height, c.depth⟩ := by
            rw [leftCenter, Point.mk.injEq]
            exact ⟨rfl, by ring⟩
          rw [List.append_assoc, List.singleton_append]
          exact List.Perm.trans List.perm_middle
            (by rw [hmid]; exact List.Perm.cons _ (List.Perm.append p1 p2))

theorem layoutRun_nil_inv (fuel : Nat) (x cursor : ℚ) (src : Option Point)
    (rl : List LayoutRect × List Link)
    (h : layoutRun fuel [] x cursor src = some rl) : rl = ([], []) := by
  cases fuel with
  | zero => rw [layoutRun] at h; exact Option.noConfusion h
  | succ f => rw [layoutRun_nil_eq] at h; exact (Option.some.inj h).symm

/-- Decomposition of a successful `calculateTreeLayout` call into its measure
result, its position result and the two bounding-box folds. -/
theorem calculateTreeLayout_inv (fuel : Nat) (nodes : Store) (rootId : String)
    (dims : DimTable) (res : LayoutResult)
    (h : calculateTreeLayout fuel nodes rootId dims = some res) :
    ∃ t rl, measureNode fuel rootId 0 nodes dims = some t ∧
      layoutRun fuel [t] 0 0 none = some rl ∧
      res.nodes = rl.1 ∧ res.links = rl.2 ∧
      res.width = rl.1.foldl (fun m n => max m (n.x + n.width)) 0 ∧
      res.height = rl.1.foldl (fun m n => max m (n.y + n.height)) 0 := by
  rw [calculateTreeLayout] at h
  cases hm : measureNode fuel rootId 0 nodes dims with
  | none => rw [hm] at h; exact Option.noConfusion h
  | some t =>
    rw [hm] at h
    simp only [Option.bind_eq_bind, Option.some_bind] at h
    cases hl : layoutRun fuel [t] 0 0 none with
    | none => rw [hl] at h; exact Option.noConfusion h
    | some rl =>
      rw [hl] at h
      simp only [Option.bind_eq_bind, Option.some_bind] at h
      have heq := Option.some.inj h
      exact ⟨t, rl, rfl, hl, by rw [← heq], by rw [← heq], by rw [← heq], by rw [← heq]⟩

/-- The one-child scenario evaluates to `demoResult`. -/
theorem demo_layout_eq :
    calculateTreeLayout 10 demoStore "root" demoDims = some demoResult := by
  have hm : measureNode 10 "root" 0 demoStore demoDims = some demoTree := by
    simp [measureNode, childrenIds, jsValues, jsGet, demoStore, demoDims, demoTree,
      Entry.parentVal, Entry.jsId, CalcNode.subtreeHeight, max_def,
      List.mapM, List.mapM.loop]
    norm_num
  have hl : layoutRun 10 [demoTree] 0 0 none =
      some (demoResult.nodes, demoResult.links) := by
    simp [layoutRun, demoTree, demoResult, CalcNode.id, CalcNode.data, CalcNode.width,
      CalcNode.height, CalcNode.depth, CalcNode.subtreeHeight, CalcNode.childrenHeight,
      CalcNode.children, H_GAP, V_GAP]
    norm_num
  rw [calculateTreeLayout, hm]
  simp only [Option.bind_eq_bind, Option.some_bind]
  rw [hl]
  simp only [Option.bind_eq_bind, Option.some_bind]
  simp [demoResult, List.foldl, max_def]
  norm_num

/-- Claim C3: every connector belongs to a parent→child edge of the store and
carries that edge's endpoint formula — its source is the right-center of the
positioned parent rectangle `p` and its target is the left-center of a positioned
child rectangle `c` with `c.id` among the store's children of `p.id` (the
band-center formula the position pass uses coincides with the child's rectangle
left-center); there is exactly one connector per non-root positioned node — the
connector targets are a permutation of the non-root rectangles' left-centers, so
the connector count is the node count minus one; and the spec's one-child
scenario (root 200×50, child 150×40) produces the child at (300,5) with the
single connector (200,25)→(300,25). -/
theorem connector_endpoints :
    (∀ (fuel : Nat) (nodes : Store) (rootId : String) (dims : DimTable)
        (res : LayoutResult), calculateTreeLayout fuel nodes rootId dims = some res →
      res.links.length + 1 = res.nodes.length ∧
      (∀ l ∈ res.links, ∃ p ∈ res.nodes, ∃ c ∈ res.nodes,
        l.source = rightCenter p ∧ l.target = leftCenter c ∧
        c.id ∈ childrenIds nodes p.id) ∧
      (res.links.map Link.target).Perm (res.nodes.tail.map leftCenter)) ∧
    calculateTreeLayout 10 demoStore "root" demoDims = some demoResult := by
  constructor
  · intro fuel nodes rootId dims res h
    rcases calculateTreeLayout_inv fuel nodes rootId dims res h with
      ⟨t, rl, hm, hl, hns, hlk, hw, hh⟩
    cases fuel with
    | zero => rw [layoutRun] at hl; exact Option.noConfusion hl
    | succ f =>
      have hedges := (measureNode_edges (f + 1) rootId 0 nodes dims t hm).2
      have hshape := layoutRun_link_edges nodes (f + 1) [t] 0 0 none rl.1 rl.2
        (by
          intro c hc
          rw [List.mem_singleton] at hc
          rw [hc]
          exact hedges) hl
      rw [layoutRun_cons_eq] at hl
      cases h1 : layoutRun f t.children (0 + t.width + H_GAP)
          (0 + t.subtreeHeight / 2 - t.childrenHeight / 2)
          (some ⟨0 + t.width, 0 + t.subtreeHeight / 2 - t.height / 2 + t.height / 2⟩) with
      | none => rw [h1] at hl; exact Option.noConfusion hl
      | some rl1 =>
        rw [h1] at hl
        cases h2 : layoutRun f [] 0 (0 + t.subtreeHeight + V_GAP) none with
        | none => rw [h2] at hl; exact Option.noConfusion hl
        | some rl2 =>
          rw [h2] at hl
          simp only [Option.some_bind] at hl
          have hrl := (Option.some.inj hl).symm
          have hrl2 := layoutRun_nil_inv f 0 (0 + t.subtreeHeight + V_GAP) none rl2 h2
          rw [hrl2] at hrl
          have hfst : rl.1 = ⟨t.id, 0, 0 + t.subtreeHeight / 2 - t.height / 2, t.data,
              t.width, t.height, t.depth⟩ :: (rl1.1 ++ []) := congrArg Prod.fst hrl
          have hsnd : rl.2 = rl1.2 ++ [] ++ [] := congrArg Prod.snd hrl
          have hperm := layoutRun_targets_perm f t.children (0 + t.width + H_GAP)
            (0 + t.subtreeHeight / 2 - t.childrenHeight / 2)
            ⟨0 + t.width, 0 + t.subtreeHeight / 2 - t.height / 2 + t.height / 2⟩
            rl1.1 rl1.2 h1
          refine ⟨?_, ?_, ?_⟩
          · rw [hlk, hns, hfst, hsnd]
            simp only [List.append_nil, List.length_cons, List.length_append]
            have := hperm.length_eq
            simp only [List.length_map] at this
            rw [this]
          · intro l hlmem
            rw [hlk] at hlmem
            rcases hshape l hlmem with ⟨s0, hs0, _⟩ |
              ⟨p, hp1, c, hc1, hsrc, htgt, hedge⟩
            · exact Option.noConfusion hs0
            · exact ⟨p, hns ▸ hp1, c, hns ▸ hc1, hsrc, htgt, hedge⟩
          · rw [hlk, hns, hfst, hsnd]
            simp only [List.append_nil, List.tail_cons]
            exact hperm
  · exact demo_layout_eq

/-- Witness for C3's general part, instantiated at the one-child scenario. -/
theorem connector_endpoints_witness :
    demoResult.links.length + 1 = demoResult.nodes.length ∧
    (∀ l ∈ demoResult.links, ∃ p ∈ demoResult.nodes, ∃ c ∈ demoResult.nodes,
      l.source = rightCenter p ∧ l.target = leftCenter c ∧
      c.id ∈ childrenIds demoStore p.id) ∧
    (demoResult.links.map Link.target).Perm (demoResult.nodes.tail.map leftCenter) :=
  connector_endpoints.1 10 demoStore "root" demoDims demoResult connector_endpoints.2

/- ## Claim C6: non-negative coordinates and bounding box -/

theorem dim_lookup_nonneg (dims : DimTable) (hd : NonnegDims dims) (id : String) :
    0 ≤ ((jsGet dims id).getD ⟨200, 50⟩).width ∧
    0 ≤ ((jsGet dims id).getD ⟨200, 50⟩).height := by
  cases hg : jsGet dims id with
  | none =>
    simp only [Option.getD]
    constructor <;> norm_num
  | some d =>
    simp only [Option.getD]
    exact hd (id, d) (jsGet_mem _ _ _ hg)

theorem MeasureInvariant.children_of (dims : DimTable) (t : CalcNode)
    (h : MeasureInvariant dims t) : ∀ c ∈ t.children, MeasureInvariant dims c := by
  cases h with
  | intro id data depth sh chh children hleaf hnode hch =>
    simpa [CalcNode.children] using hch

/-- A measured node has non-negative size, its subtree height dominates both its
own height and its children stack height, and the children stack height is
non-negative. -/
theorem measure_nonneg (dims : DimTable) (hd : NonnegDims dims) (t : CalcNode)
    (h : MeasureInvariant dims t) :
    0 ≤ t.width ∧ 0 ≤ t.height ∧ 0 ≤ t.childrenHeight ∧
    t.height ≤ t.subtreeHeight ∧ t.childrenHeight ≤ t.subtreeHeight := by
  induction h with
  | intro id data depth sh chh children hleaf hnode hch ih =>
    simp only [CalcNode.width, CalcNode.height, CalcNode.childrenHeight,
      CalcNode.subtreeHeight]
    rcases dim_lookup_nonneg dims hd id with ⟨hw, hh⟩
    by_cases hc : children = []
    · rcases hleaf hc with ⟨hsh, hchh⟩
      rw [hsh, hchh]
      exact ⟨hw, hh, le_refl 0, le_refl _, hh⟩
    · rcases hnode hc with ⟨hchh, hsh⟩
      have hsum : 0 ≤ (children.map CalcNode.subtreeHeight).sum := by
        apply List.sum_nonneg
        intro q hq
        rcases List.mem_map.mp hq with ⟨c, hcm, hceq⟩
        rcases ih c hcm with ⟨_, hch0, _, hchsh, _⟩
        rw [← hceq]
        exact le_trans hch0 hchsh
      have hvg : (0:ℚ) ≤ V_GAP := by rw [V_GAP]; norm_num
      have hgap : (0:ℚ) ≤ ((children.length - 1 : ℕ) : ℚ) * V_GAP :=
        mul_nonneg (Nat.cast_nonneg _) hvg
      have hchh0 : 0 ≤ chh := by
        rw [hchh]
        exact add_nonneg hsum hgap
      rw [hsh]
      exact ⟨hw, hh, hchh0, le_max_left _ _, le_max_right _ _⟩

/-- Every rectangle a run positions from a non-negative origin has non-negative
coordinates and size. -/
theorem layoutRun_nonneg (dims : DimTable) (hd : NonnegDims dims) (fuel : Nat) :
    ∀ (cs : List CalcNode) (x cursor : ℚ) (src : Option Point)
      (rs : List LayoutRect) (ls : List Link),
      (∀ c ∈ cs, MeasureInvariant dims c) → 0 ≤ x → 0 ≤ cursor →
      layoutRun fuel cs x cursor src = some (rs, ls) →
      ∀ r ∈ rs, 0 ≤ r.x ∧ 0 ≤ r.y ∧ 0 ≤ r.width ∧ 0 ≤ r.height := by
  induction fuel with
  | zero =>
    intro cs x cursor src rs ls _ _ _ h
    rw [layoutRun] at h
    exact Option.noConfusion h
  | succ fuel ih =>
    intro cs x cursor src rs ls hcs hx hcur h
    cases cs with
    | nil =>
      rw [layoutRun_nil_eq] at h
      have hrs : rs = [] := (congrArg Prod.fst (Option.some.inj h)).symm
      rw [hrs]
      intro r hr
      exact absurd hr (List.not_mem_nil r)
    | cons c rest =>
      have hmc := hcs c (List.mem_cons_self _ _)
      have hrest : ∀ c' ∈ rest, MeasureInvariant dims c' :=
        fun c' hc' => hcs c' (List.mem_cons_of_mem _ hc')
      rcases measure_nonneg dims hd c hmc with ⟨hw, hh, hch0, hhsh, hchsh⟩
      have hsh0 : 0 ≤ c.subtreeHeight := le_trans hh hhsh
      have hHg : (0:ℚ) ≤ H_GAP := by rw [H_GAP]; norm_num
      have hVg : (0:ℚ) ≤ V_GAP := by rw [V_GAP]; norm_num
      rw [layoutRun_cons_eq] at h
      cases h1 : layoutRun fuel c.children (x + c.width + H_GAP)
          (cursor + c.subtreeHeight / 2 - c.childrenHeight / 2)
          (some ⟨x + c.width, cursor + c.subtreeHeight / 2 - c.height / 2 + c.height / 2⟩) with
      | none => rw [h1] at h; exact Option.noConfusion h
      | some rl1 =>
        rw [h1] at h
        cases h2 : layoutRun fuel rest x (cursor + c.subtreeHeight + V_GAP) src with
        | none => rw [h2] at h; exact Option.noConfusion h
        | some rl2 =>
          rw [h2] at h
          simp only [Option.some_bind] at h
          have hrs := (congrArg Prod.fst (Option.some.inj h)).symm
          simp only at hrs
          have ih1 := ih c.children (x + c.width + H_GAP)
            (cursor + c.subtreeHeight / 2 - c.childrenHeight / 2) _ rl1.1 rl1.2
            (MeasureInvariant.children_of dims c hmc)
            (by linarith) (by linarith) h1
          have ih2 := ih rest x (cursor + c.subtreeHeight + V_GAP) src rl2.1 rl2.2
            hrest hx (by linarith) h2
          intro r hr
          rw [hrs] at hr
          rcases List.mem_cons.mp hr with hr1 | hr1
          · rw [hr1]
            exact ⟨hx, by simp only; linarith, hw, hh⟩
          · rcases List.mem_append.mp hr1 with hr2 | hr2
            · exact ih1 r hr2
            · exact ih2 r hr2

theorem foldl_max_characterize {α : Type} (f : α → ℚ) :
    ∀ (l : List α) (a : ℚ),
      a ≤ l.foldl (fun m n => max m (f n)) a ∧
      (∀ r ∈ l, f r ≤ l.foldl (fun m n => max m (f n)) a) ∧
      (l.foldl (fun m n => max m (f n)) a = a ∨
        ∃ r ∈ l, l.foldl (fun m n => max m (f n)) a = f r) := by
  intro l
  induction l with
  | nil =>
    intro a
    exact ⟨le_refl a, fun r hr => absurd hr (List.not_mem_nil r), Or.inl rfl⟩
  | cons b l ih =>
    intro a
    rw [List.foldl_cons]
    rcases ih (max a (f b)) with ⟨h1, h2, h3⟩
    refine ⟨le_trans (le_max_left _ _) h1, ?_, ?_⟩
    · intro r hr
      rcases List.mem_cons.mp hr with hr1 | hr1
      · rw [hr1]
        exact le_trans (le_max_right _ _) h1
      · exact h2 r hr1
    · rcases h3 with h4 | ⟨r, hr, hfr⟩
      · rcases max_choice a (f b) with hm | hm
        · exact Or.inl (h4.trans hm)
        · exact Or.inr ⟨b, List.mem_cons_self _ _, h4.trans hm⟩
      · exact Or.inr ⟨r, List.mem_cons_of_mem _ hr, hfr⟩

theorem layoutRun_cons_head (fuel : Nat) (c : CalcNode) (rest : List CalcNode)
    (x cursor : ℚ) (src : Option Point) (rs : List LayoutRect) (ls : List Link)
    (h : layoutRun fuel (c :: rest) x cursor src = some (rs, ls)) :
    ∃ tl, rs = ⟨c.id, x, cursor + c.subtreeHeight / 2 - c.height / 2, c.data,
      c.width, c.height, c.depth⟩ :: tl := by
  cases fuel with
  | zero => rw [layoutRun] at h; exact Option.noConfusion h
  | succ fuel =>
    rw [layoutRun_cons_eq] at h
    cases h1 : layoutRun fuel c.children (x + c.width + H_GAP)
        (cursor + c.subtreeHeight / 2 - c.childrenHeight / 2)
        (some ⟨x + c.width, cursor + c.subtreeHeight / 2 - c.height / 2 + c.height / 2⟩) with
    | none => rw [h1] at h; exact Option.noConfusion h
    | some rl1 =>
      rw [h1] at h
      cases h2 : layoutRun fuel rest x (cursor + c.subtreeHeight + V_GAP) src with
      | none => rw [h2] at h; exact Option.noConfusion h
      | some rl2 =>
        rw [h2] at h
        simp only [Option.some_bind] at h
        have hrs := (congrArg Prod.fst (Option.some.inj h)).symm
        simp only at hrs
        exact ⟨rl1.1 ++ rl2.1, hrs⟩

/-- Claim C6: with a genuine (non-negative) dimension table, every positioned node
has `x ≥ 0` and `y ≥ 0`, and the returned width (resp. height) is the maximum over
all positioned nodes of `x + width` (resp. `y + height`): it bounds every node and
is attained by one. -/
theorem layout_nonneg_bbox (fuel : Nat) (nodes : Store) (rootId : String)
    (dims : DimTable) (res : LayoutResult) (hd : NonnegDims dims)
    (h : calculateTreeLayout fuel nodes rootId dims = some res) :
    (∀ r ∈ res.nodes, 0 ≤ r.x ∧ 0 ≤ r.y) ∧
    (∀ r ∈ res.nodes, r.x + r.width ≤ res.width) ∧
    (∃ r ∈ res.nodes, res.width = r.x + r.width) ∧
    (∀ r ∈ res.nodes, r.y + r.height ≤ res.height) ∧
    (∃ r ∈ res.nodes, res.height = r.y + r.height) := by
  rcases calculateTreeLayout_inv fuel nodes rootId dims res h with
    ⟨t, rl, hm, hl, hns, hlk, hw, hh⟩
  have hmi := measure_invariant fuel rootId 0 nodes dims t hm
  have hnn := layoutRun_nonneg dims hd fuel [t] 0 0 none rl.1 rl.2
    (by intro c hc; rw [List.mem_singleton] at hc; rw [hc]; exact hmi)
    (le_refl 0) (le_refl 0) (by rw [← hl])
  rcases layoutRun_cons_head fuel t [] 0 0 none rl.1 rl.2 (by rw [← hl]) with ⟨tl, hhead⟩
  have hr0 : (⟨t.id, 0, 0 + t.subtreeHeight / 2 - t.height / 2, t.data,
      t.width, t.height, t.depth⟩ : LayoutRect) ∈ rl.1 := by
    rw [hhead]
    exact List.mem_cons_self _ _
  rcases foldl_max_characterize (fun r : LayoutRect => r.x + r.width) rl.1 0 with
    ⟨_, hwub, hwex⟩
  rcases foldl_max_characterize (fun r : LayoutRect => r.y + r.height) rl.1 0 with
    ⟨_, hhub, hhex⟩
  refine ⟨?_, ?_, ?_, ?_, ?_⟩
  · intro r hr
    rcases hnn r (hns ▸ hr) with ⟨h1, h2, _, _⟩
    exact ⟨h1, h2⟩
  · intro r hr
    rw [hw]
    exact hwub r (hns ▸ hr)
  · rcases hwex with h0 | ⟨r, hr, hfr⟩
    · refine ⟨_, hns ▸ hr0, ?_⟩
      rcases hnn _ hr0 with ⟨ha, _, hc, _⟩
      have hub0 := hwub _ hr0
      rw [h0] at hub0
      rw [hw, h0]
      simp only at hub0 ⊢
      linarith
    · exact ⟨r, hns ▸ hr, by rw [hw, hfr]⟩
  · intro r hr
    rw [hh]
    exact hhub r (hns ▸ hr)
  · rcases hhex with h0 | ⟨r, hr, hfr⟩
    · refine ⟨_, hns ▸ hr0, ?_⟩
      rcases hnn _ hr0 with ⟨_, hb, _, hd2⟩
      have hub0 := hhub _ hr0
      rw [h0] at hub0
      rw [hh, h0]
      simp only at hub0 ⊢
      linarith
    · exact ⟨r, hns ▸ hr, by rw [hh, hfr]⟩

/-- Witness for C6 at the one-child scenario. -/
theorem layout_nonneg_bbox_witness :
    (∀ r ∈ demoResult.nodes, 0 ≤ r.x ∧ 0 ≤ r.y) ∧
    (∀ r ∈ demoResult.nodes, r.x + r.width ≤ demoResult.width) ∧
    (∃ r ∈ demoResult.nodes, demoResult.width = r.x + r.width) ∧
    (∀ r ∈ demoResult.nodes, r.y + r.height ≤ demoResult.height) ∧
    (∃ r ∈ demoResult.nodes, demoResult.height = r.y + r.height) :=
  layout_nonneg_bbox 10 demoStore "root" demoDims demoResult
    (by
      intro p hp
      rw [demoDims] at hp
      rcases List.mem_cons.mp hp with h1 | h1
      · rw [h1]; constructor <;> norm_num
      · rw [List.mem_singleton] at h1
        rw [h1]; constructor <;> norm_num)
    demo_layout_eq

/- ## Claim C1: layout and insertion order -/

/-- Counterexample to claim C1: `storeAB` and `storeBA` hold the same three nodes
(a permutation — same ids, parentIds, texts) and the dimension table is the same
(empty), yet the layouts differ: children are enumerated in insertion order, not
id order, so `a` is placed at y = 0 in one layout and y = 70 in the other. -/
theorem layout_insertion_order_counterexample :
    storeAB.Perm storeBA ∧
    calculateTreeLayout 10 storeAB "root" [] ≠
      calculateTreeLayout 10 storeBA "root" [] := by
  constructor
  · exact List.Perm.cons _ (List.Perm.swap _ _ _)
  · have h1 : calculateTreeLayout 10 storeAB "root" [] =
        some ⟨[⟨"root", 0, 35, some (.node ⟨"root", none, "Central Topic"⟩), 200, 50, 0⟩,
               ⟨"a", 300, 0, some (.node ⟨"a", some "root", "A"⟩), 200, 50, 1⟩,
               ⟨"b", 300, 70, some (.node ⟨"b", some "root", "B"⟩), 200, 50, 1⟩],
              [⟨⟨200, 60⟩, ⟨300, 25⟩⟩, ⟨⟨200, 60⟩, ⟨300, 95⟩⟩], 500, 120⟩ := by
      have hm : measureNode 10 "root" 0 storeAB [] =
          some (.mk "root" (some (.node ⟨"root", none, "Central Topic"⟩)) 200 50 0 120 120
            [.mk "a" (some (.node ⟨"a", some "root", "A"⟩)) 200 50 1 50 0 [],
             .mk "b" (some (.node ⟨"b", some "root", "B"⟩)) 200 50 1 50 0 []]) := by
        simp [measureNode, childrenIds, jsValues, jsGet, storeAB,
          Entry.parentVal, Entry.jsId, CalcNode.subtreeHeight, max_def, V_GAP,
          List.mapM, List.mapM.loop]
        norm_num
      rw [calculateTreeLayout, hm]
      simp only [Option.bind_eq_bind, Option.some_bind]
      have hl : layoutRun 10 [(.mk "root" (some (.node ⟨"root", none, "Central Topic"⟩))
            200 50 0 120 120
            [.mk "a" (some (.node ⟨"a", some "root", "A"⟩)) 200 50 1 50 0 [],
             .mk "b" (some (.node ⟨"b", some "root", "B"⟩)) 200 50 1 50 0 []] : CalcNode)]
            0 0 none =
          some ([⟨"root", 0, 35, some (.node ⟨"root", none, "Central Topic"⟩), 200, 50, 0⟩,
                 ⟨"a", 300, 0, some (.node ⟨"a", some "root", "A"⟩), 200, 50, 1⟩,
                 ⟨"b", 300, 70, some (.node ⟨"b", some "root", "B"⟩), 200, 50, 1⟩],
                [⟨⟨200, 60⟩, ⟨300, 25⟩⟩, ⟨⟨200, 60⟩, ⟨300, 95⟩⟩]) := by
        simp [layoutRun, CalcNode.id, CalcNode.data, CalcNode.width,
          CalcNode.height, CalcNode.depth, CalcNode.subtreeHeight, CalcNode.childrenHeight,
          CalcNode.children, H_GAP, V_GAP]
        norm_num
      rw [hl]
      simp only [Option.bind_eq_bind, Option.some_bind]
      simp [List.foldl, max_def]
      norm_num
    have h2 : calculateTreeLayout 10 storeBA "root" [] =
        some ⟨[⟨"root", 0, 35, some (.node ⟨"root", none, "Central Topic"⟩), 200, 50, 0⟩,
               ⟨"b", 300, 0, some (.node ⟨"b", some "root", "B"⟩), 200, 50, 1⟩,
               ⟨"a", 300, 70, some (.node ⟨"a", some "root", "A"⟩), 200, 50, 1⟩],
              [⟨⟨200, 60⟩, ⟨300, 25⟩⟩, ⟨⟨200, 60⟩, ⟨300, 95⟩⟩], 500, 120⟩ := by
      have hm : measureNode 10 "root" 0 storeBA [] =
          some (.mk "root" (some (.node ⟨"root", none, "Central Topic"⟩)) 200 50 0 120 120
            [.mk "b" (some (.node ⟨"b", some "root", "B"⟩)) 200 50 1 50 0 [],
             .mk "a" (some (.node ⟨"a", some "root", "A"⟩)) 200 50 1 50 0 []]) := by
        simp [measureNode, childrenIds, jsValues, jsGet, storeBA,
          Entry.parentVal, Entry.jsId, CalcNode.subtreeHeight, max_def, V_GAP,
          List.mapM, List.mapM.loop]
        norm_num
      rw [calculateTreeLayout, hm]
      simp only [Option.bind_eq_bind, Option.some_bind]
      have hl : layoutRun 10 [(.mk "root" (some (.node ⟨"root", none, "Central Topic"⟩))
            200 50 0 120 120
            [.mk "b" (some (.node ⟨"b", some "root", "B"⟩)) 200 50 1 50 0 [],
             .mk "a" (some (.node ⟨"a", some "root", "A"⟩)) 200 50 1 50 0 []] : CalcNode)]
            0 0 none =
          some ([⟨"root", 0, 35, some (.node ⟨"root", none, "Central Topic"⟩), 200, 50, 0⟩,
                 ⟨"b", 300, 0, some (.node ⟨"b", some "root", "B"⟩), 200, 50, 1⟩,
                 ⟨"a", 300, 70, some (.node ⟨"a", some "root", "A"⟩), 200, 50, 1⟩],
                [⟨⟨200, 60⟩, ⟨300, 25⟩⟩, ⟨⟨200, 60⟩, ⟨300, 95⟩⟩]) := by
        simp [layoutRun, CalcNode.id, CalcNode.data, CalcNode.width,
          CalcNode.height, CalcNode.depth, CalcNode.subtreeHeight, CalcNode.childrenHeight,
          CalcNode.children, H_GAP, V_GAP]
        norm_num
      rw [hl]
      simp only [Option.bind_eq_bind, Option.some_bind]
      simp [List.foldl, max_def]
      norm_num
    rw [h1, h2]
    intro hcontra
    have := Option.some.inj hcontra
    exact absurd (congrArg LayoutResult.nodes this) (by decide)

/-- Claim C1 amended: the layout is determined by the store's per-id lookups
together with the per-id children lists in insertion order — not by the set of
nodes alone.  Two stores with the same entry under every id and the same
insertion-ordered children list for every id produce identical layouts; merely
containing the same nodes in a different insertion order can change the layout,
because children are enumerated in `Object.values` (insertion) order, not id
order. -/
theorem layout_store_extensional (fuel : Nat) (nodes₁ nodes₂ : Store)
    (rootId : String) (dims : DimTable)
    (hget : ∀ id, jsGet nodes₁ id = jsGet nodes₂ id)
    (hch : ∀ id, childrenIds nodes₁ id = childrenIds nodes₂ id) :
    calculateTreeLayout fuel nodes₁ rootId dims =
      calculateTreeLayout fuel nodes₂ rootId dims := by
  have hmeq : ∀ (f : Nat) (id : String) (depth : Nat),
      measureNode f id depth nodes₁ dims = measureNode f id depth nodes₂ dims := by
    intro f
    induction f with
    | zero => intro id depth; rfl
    | succ f ih =>
      intro id depth
      rw [measureNode, measureNode, hget id, hch id,
        mapM_option_congr _ _ _ (fun c _ => ih c (depth + 1))]
  rw [calculateTreeLayout, calculateTreeLayout, hmeq fuel rootId 0]

/-- Witness for the amended C1: `storeInterleaved` and `storeSequential` are
different lists with the same per-id lookups and children lists, and get the same
layout. -/
theorem layout_store_extensional_witness :
    calculateTreeLayout 10 storeInterleaved "root" [] =
      calculateTreeLayout 10 storeSequential "root" [] :=
  layout_store_extensional 10 storeInterleaved storeSequential "root" []
    (by
      intro id
      by_cases h1 : "root" = id
      · rw [← h1]; decide
      · by_cases h2 : "a" = id
        · rw [← h2]; decide
        · by_cases h3 : "b" = id
          · rw [← h3]; decide
          · by_cases h4 : "c" = id
            · rw [← h4]; decide
            · simp [storeInterleaved, storeSequential, jsGet, h1, h2, h3, h4])
    (by
      intro id
      by_cases h1 : "root" = id
      · rw [← h1]; decide
      · by_cases h2 : "a" = id
        · rw [← h2]; decide
        · by_cases h3 : "b" = id
          · rw [← h3]; decide
          · by_cases h4 : "c" = id
            · rw [← h4]; decide
            · simp [storeInterleaved, storeSequential, childrenIds, jsValues,
                Entry.parentVal, h1, h2, h4])

/- ## Claim C7: navigation rules -/

theorem sortInsert_perm {α : Type} (le : α → α → Bool) (a : α) :
    ∀ l : List α, (sortInsert le a l).Perm (a :: l) := by
  intro l
  induction l with
  | nil => exact List.Perm.refl _
  | cons b l ih =>
    rw [sortInsert]
    by_cases h : le a b
    · rw [if_pos h]
    · rw [if_neg h]
      exact List.Perm.trans (List.Perm.cons b ih) (List.Perm.swap a b l)

theorem stableSort_perm {α : Type} (le : α → α → Bool) :
    ∀ l : List α, (stableSort le l).Perm l := by
  intro l
  induction l with
  | nil => exact List.Perm.refl _
  | cons a l ih =>
    rw [stableSort]
    exact List.Perm.trans (sortInsert_perm le a (stableSort le l))
      (List.Perm.cons a ih)

/-- In a well-formed store the values' `id` fields are exactly the keys. -/
theorem entries_wf_map_jsId (nodes : Store) (hwf : entriesWellFormed nodes = true) :
    (jsValues nodes).map Entry.jsId = nodes.map Prod.fst := by
  induction nodes with
  | nil => rfl
  | cons p rest ih =>
    rw [entriesWellFormed, List.all_cons, Bool.and_eq_true] at hwf
    rw [jsValues, List.map_cons, List.map_cons, List.map_cons]
    cases hp : p.2 with
    | node d =>
      rw [hp] at hwf
      have hid : d.id = p.1 := eq_of_beq hwf.1
      have hrest := ih hwf.2
      rw [jsValues] at hrest
      rw [show Entry.jsId (Entry.node d) = p.1 from by rw [Entry.jsId, hid], hrest]
    | textOnly t =>
      rw [hp] at hwf
      exact absurd hwf.1 (by simp)

theorem sortedSiblings_ids_nodup (nodes : Store) (pv : Option (Option String))
    (hwf : entriesWellFormed nodes = true) (hnd : (nodes.map Prod.fst).Nodup) :
    ((sortedSiblings nodes pv).map Entry.jsId).Nodup := by
  have h1 : ((jsValues nodes).map Entry.jsId).Nodup := by
    rw [entries_wf_map_jsId nodes hwf]
    exact hnd
  have h2 : ((jsValues nodes).filter
      (fun e => e.parentVal = pv)).Sublist (jsValues nodes) :=
    List.filter_sublist _
  have h3 := (h2.map Entry.jsId).nodup h1
  have h4 := (stableSort_perm (fun a b => strLe a.jsId b.jsId)
    ((jsValues nodes).filter (fun e => e.parentVal = pv))).map Entry.jsId
  rw [sortedSiblings]
  exact (h4.nodup_iff).mpr h3

/-- `findIndex` returns the index of the unique element whose projection matches. -/
theorem jsFindIndex_spec {α β : Type} [DecidableEq β] (f : α → β) (b : β) :
    ∀ (l : List α) (i : Nat) (x : α), (l.map f).Nodup → l[i]? = some x → f x = b →
      jsFindIndex (fun e => f e = b) l = (i : Int) := by
  intro l
  induction l with
  | nil =>
    intro i x _ h _
    simp at h
  | cons c rest ih =>
    intro i x hnd hget hfx
    rw [List.map_cons, List.nodup_cons] at hnd
    cases i with
    | zero =>
      rw [List.getElem?_cons_zero] at hget
      have hx : c = x := Option.some.inj hget
      rw [jsFindIndex, if_pos (by rw [decide_eq_true_eq, hx, hfx])]
      rfl
    | succ j =>
      rw [List.getElem?_cons_succ] at hget
      have hxr : x ∈ rest := List.getElem?_mem hget
      have hfc : ¬ (f c = b) := by
        intro hcb
        apply hnd.1
        rw [hcb, ← hfx]
        exact List.mem_map_of_mem f hxr
      rw [jsFindIndex, if_neg (by rw [decide_eq_true_eq]; exact hfc)]
      simp only
      rw [ih j x hnd.2 hget hfx]
      rw [if_neg (by omega)]
      omega

/-- Counterexample to claim C7 as stated: in `storeBA` the children of the root in
stable id order are `a` then `b`, but `navigate right` focuses `b` — the first
child in insertion order, not in id order. -/
theorem navigate_right_counterexample :
    (navigate "root" .right ⟨storeBA, some "root", []⟩).focusedNodeId = some "b" ∧
    childrenIds storeBA "root" = ["b", "a"] ∧
    strLe "a" "b" = true := by
  decide

/-- Claim C7 amended: `left` moves to the parent (no-op at the root); `right`
moves to the first child in insertion (store) order — not id order; `up`/`down`
move to the previous/next entry of the id-sorted sibling list, with no wraparound:
out-of-range indices leave the state unchanged. -/
theorem navigate_rules (s : AppState) (currentId : String) (cur : NodeData)
    (hwf : entriesWellFormed s.nodes = true)
    (hnd : (s.nodes.map Prod.fst).Nodup)
    (hcur : jsGet s.nodes currentId = some (.node cur)) :
    ((cur.parentId = none → navigate currentId .left s = s) ∧
     (∀ p, cur.parentId = some p →
        navigate currentId .left s = { s with focusedNodeId := some p })) ∧
    ((childrenIds s.nodes currentId = [] → navigate currentId .right s = s) ∧
     (∀ c cs, childrenIds s.nodes currentId = c :: cs →
        navigate currentId .right s = { s with focusedNodeId := some c })) ∧
    (∀ i, ((sortedSiblings s.nodes (some cur.parentId)).map Entry.jsId)[i]? =
        some currentId →
      ((i = 0 → navigate currentId .up s = s) ∧
       (∀ j y, i = j + 1 →
          ((sortedSiblings s.nodes (some cur.parentId)).map Entry.jsId)[j]? = some y →
          navigate currentId .up s = { s with focusedNodeId := some y }) ∧
       (((sortedSiblings s.nodes (some cur.parentId)).map Entry.jsId)[i + 1]? = none →
          navigate currentId .down s = s) ∧
       (∀ y, ((sortedSiblings s.nodes (some cur.parentId)).map Entry.jsId)[i + 1]? =
            some y →
          navigate currentId .down s = { s with focusedNodeId := some y }))) := by
  refine ⟨⟨?_, ?_⟩, ⟨?_, ?_⟩, ?_⟩
  · intro hp
    simp only [navigate, hcur, Entry.parentVal, hp]
  · intro p hp
    simp only [navigate, hcur, Entry.parentVal, hp]
  · intro hch
    rw [childrenIds] at hch
    have hfil := List.map_eq_nil_iff.mp hch
    simp only [navigate, hcur, hfil]
  · intro c cs hch
    rw [childrenIds] at hch
    cases hf : (jsValues s.nodes).filter
        (fun e => e.parentVal = some (some currentId)) with
    | nil =>
      rw [hf] at hch
      exact absurd hch (by simp)
    | cons e es =>
      rw [hf, List.map_cons] at hch
      injection hch with h1 _
      simp only [navigate, hcur, hf, h1]
  · intro i hi
    have hnodup := sortedSiblings_ids_nodup s.nodes (some cur.parentId) hwf hnd
    rw [List.getElem?_map] at hi
    cases hsi : (sortedSiblings s.nodes (some cur.parentId))[i]? with
    | none =>
      rw [hsi] at hi
      exact Option.noConfusion hi
    | some e =>
      rw [hsi] at hi
      have hje : e.jsId = currentId := Option.some.inj hi
      have hidx := jsFindIndex_spec Entry.jsId currentId
        (sortedSiblings s.nodes (some cur.parentId)) i e hnodup hsi hje
      refine ⟨?_, ?_, ?_, ?_⟩
      · intro h0
        subst h0
        simp only [navigate, hcur, Entry.parentVal, hidx]
        rw [if_neg (by omega)]
        rw [if_neg (fun hdir => Direction.noConfusion hdir)]
        rw [if_pos (by omega)]
      · intro j y hij hj
        subst hij
        rw [List.getElem?_map] at hj
        cases hsj : (sortedSiblings s.nodes (some cur.parentId))[j]? with
        | none =>
          rw [hsj] at hj
          exact Option.noConfusion hj
        | some ey =>
          rw [hsj] at hj
          have hjy : ey.jsId = y := Option.some.inj hj
          simp only [navigate, hcur, Entry.parentVal, hidx]
          rw [if_neg (by omega)]
          rw [if_neg (fun hdir => Direction.noConfusion hdir)]
          rw [if_neg (by omega)]
          have htn : (((j + 1 : Nat) : Int) - 1).toNat = j := by omega
          rw [htn, hsj]
          exact congrArg (fun z =>
            ({ nodes := s.nodes, focusedNodeId := some z,
               nodeDimensions := s.nodeDimensions } : AppState)) hjy
      · intro hnone
        rw [List.getElem?_map] at hnone
        have hsn : (sortedSiblings s.nodes (some cur.parentId))[i + 1]? = none := by
          cases hq : (sortedSiblings s.nodes (some cur.parentId))[i + 1]? with
          | none => rfl
          | some q => rw [hq] at hnone; exact Option.noConfusion hnone
        simp only [navigate, hcur, Entry.parentVal, hidx]
        rw [if_neg (by omega)]
        simp only [if_true]
        rw [if_neg (by omega)]
        have htn : (((i : Nat) : Int) + 1).toNat = i + 1 := by omega
        rw [htn, hsn]
      · intro y hy
        rw [List.getElem?_map] at hy
        cases hsy : (sortedSiblings s.nodes (some cur.parentId))[i + 1]? with
        | none =>
          rw [hsy] at hy
          exact Option.noConfusion hy
        | some ey =>
          rw [hsy] at hy
          have hyy : ey.jsId = y := Option.some.inj hy
          simp only [navigate, hcur, Entry.parentVal, hidx]
          rw [if_neg (by omega)]
          simp only [if_true]
          rw [if_neg (by omega)]
          have htn : (((i : Nat) : Int) + 1).toNat = i + 1 := by omega
          rw [htn, hsy]
          exact congrArg (fun z =>
            ({ nodes := s.nodes, focusedNodeId := some z,
               nodeDimensions := s.nodeDimensions } : AppState)) hyy

/-- Witness for the amended C7 on the store `[root, a, b]`. -/
theorem navigate_rules_witness :
    navigate "b" .left ⟨storeAB, some "b", []⟩ =
      { (⟨storeAB, some "b", []⟩ : AppState) with focusedNodeId := some "root" } ∧
    navigate "root" .right ⟨storeAB, some "b", []⟩ =
      { (⟨storeAB, some "b", []⟩ : AppState) with focusedNodeId := some "a" } ∧
    navigate "b" .up ⟨storeAB, some "b", []⟩ =
      { (⟨storeAB, some "b", []⟩ : AppState) with focusedNodeId := some "a" } ∧
    navigate "b" .down ⟨storeAB, some "b", []⟩ = ⟨storeAB, some "b", []⟩ := by
  have h1 := navigate_rules ⟨storeAB, some "b", []⟩ "b" ⟨"b", some "root", "B"⟩
    (by decide) (by decide) (by decide)
  have h2 := navigate_rules ⟨storeAB, some "b", []⟩ "root" ⟨"root", none, "Central Topic"⟩
    (by decide) (by decide) (by decide)
  refine ⟨h1.1.2 "root" rfl, h2.2.1.2 "a" ["b"] (by decide), ?_, ?_⟩
  · exact (h1.2.2 1 (by decide)).2.1 0 "a" rfl (by decide)
  · exact (h1.2.2 1 (by decide)).2.2.1 (by decide)

/- ## Claim C5: delete-subtree completeness and the tree invariant -/

theorem forall₂_mem_left {α β : Type} {R : α → β → Prop} {l : List α} {ys : List β}
    (h : List.Forall₂ R l ys) : ∀ x ∈ l, ∃ y ∈ ys, R x y := by
  induction h with
  | nil => intro x hx; exact absurd hx (List.not_mem_nil x)
  | cons hr _ ih =>
    intro x hx
    rcases List.mem_cons.mp hx with hx1 | hx1
    · exact ⟨_, List.mem_cons_self _ _, hx1 ▸ hr⟩
    · rcases ih x hx1 with ⟨y, hy, hxy⟩
      exact ⟨y, List.mem_cons_of_mem _ hy, hxy⟩

theorem jsGet_append (m m' : List (String × α)) (k : String) :
    jsGet (m ++ m') k =
      match jsGet m k with
      | some v => some v
      | none => jsGet m' k := by
  induction m with
  | nil => simp [jsGet]
  | cons p rest ih =>
    rw [List.cons_append, jsGet, jsGet]
    by_cases hk : p.1 = k
    · rw [if_pos hk, if_pos hk]
    · rw [if_neg hk, if_neg hk]
      exact ih

theorem jsInsert_of_none (m : List (String × α)) (k : String) (v : α)
    (h : jsGet m k = none) : jsInsert m k v = m ++ [(k, v)] := by
  rw [jsInsert, h]
  rfl

theorem mem_jsErase (m : List (String × α)) (k : String) (p : String × α) :
    p ∈ jsErase m k ↔ p ∈ m ∧ p.1 ≠ k := by
  induction m with
  | nil => simp [jsErase]
  | cons q rest ih =>
    rw [jsErase]
    by_cases hq : q.1 = k
    · rw [if_pos hq, ih]
      constructor
      · intro ⟨h1, h2⟩
        exact ⟨List.mem_cons_of_mem _ h1, h2⟩
      · intro ⟨h1, h2⟩
        rcases List.mem_cons.mp h1 with h3 | h3
        · exact absurd (h3 ▸ hq) h2
        · exact ⟨h3, h2⟩
    · rw [if_neg hq]
      constructor
      · intro h1
        rcases List.mem_cons.mp h1 with h3 | h3
        · exact ⟨h3 ▸ List.mem_cons_self _ _, h3 ▸ hq⟩
        · rcases ih.mp h3 with ⟨h4, h5⟩
          exact ⟨List.mem_cons_of_mem _ h4, h5⟩
      · intro ⟨h1, h2⟩
        rcases List.mem_cons.mp h1 with h3 | h3
        · exact h3 ▸ List.mem_cons_self _ _
        · exact List.mem_cons_of_mem _ (ih.mpr ⟨h3, h2⟩)

theorem jsErase_sublist (m : List (String × α)) (k : String) :
    (jsErase m k).Sublist m := by
  induction m with
  | nil => simp [jsErase]
  | cons q rest ih =>
    rw [jsErase]
    by_cases hq : q.1 = k
    · rw [if_pos hq]
      exact ih.cons q
    · rw [if_neg hq]
      exact ih.cons₂ q

theorem foldl_erase_sublist (ids : List String) :
    ∀ m : List (String × α),
      (ids.foldl (fun acc d => jsErase acc d) m).Sublist m := by
  induction ids with
  | nil => intro m; exact List.Sublist.refl m
  | cons d ids ih =>
    intro m
    rw [List.foldl_cons]
    exact (ih (jsErase m d)).trans (jsErase_sublist m d)

theorem jsGet_foldl_erase (ids : List String) :
    ∀ (m : List (String × α)) (k : String),
      jsGet (ids.foldl (fun acc d => jsErase acc d) m) k =
        if k ∈ ids then none else jsGet m k := by
  induction ids with
  | nil =>
    intro m k
    simp
  | cons d ids ih =>
    intro m k
    rw [List.foldl_cons, ih]
    by_cases h1 : k ∈ ids
    · rw [if_pos h1, if_pos (List.mem_cons_of_mem _ h1)]
    · rw [if_neg h1, jsGet_erase]
      by_cases h2 : k = d
      · rw [if_pos h2, if_pos (h2 ▸ List.mem_cons_self d ids)]
      · rw [if_neg h2, if_neg (by
          intro hm
          rcases List.mem_cons.mp hm with h3 | h3
          · exact h2 h3
          · exact h1 h3)]

theorem mem_foldl_erase (ids : List String) :
    ∀ (m : List (String × α)) (p : String × α),
      p ∈ ids.foldl (fun acc d => jsErase acc d) m ↔ p ∈ m ∧ p.1 ∉ ids := by
  induction ids with
  | nil =>
    intro m p
    simp
  | cons d ids ih =>
    intro m p
    rw [List.foldl_cons, ih, mem_jsErase]
    constructor
    · intro ⟨⟨h1, h2⟩, h3⟩
      refine ⟨h1, ?_⟩
      intro hm
      rcases List.mem_cons.mp hm with h4 | h4
      · exact h2 h4
      · exact h3 h4
    · intro ⟨h1, h2⟩
      exact ⟨⟨h1, fun h => h2 (h ▸ List.mem_cons_self d ids)⟩,
        fun h => h2 (List.mem_cons_of_mem _ h)⟩

theorem entriesWellFormed_mem (nodes : Store)
    (hwf : entriesWellFormed nodes = true) (k : String) (e : Entry)
    (h : (k, e) ∈ nodes) : ∃ d, e = .node d ∧ d.id = k := by
  rw [entriesWellFormed, List.all_eq_true] at hwf
  have hm := hwf (k, e) h
  cases e with
  | node d => exact ⟨d, rfl, eq_of_beq hm⟩
  | textOnly t => exact absurd hm (by simp)

theorem parentsResolve_iff (nodes : Store) :
    parentsResolve nodes = true ↔
      ∀ p ∈ nodes, ∀ pid, p.2.parentVal = some (some pid) →
        (jsGet nodes pid).isSome = true := by
  rw [parentsResolve, List.all_eq_true]
  constructor
  · intro h p hp pid hpid
    have hm := h p hp
    rw [hpid] at hm
    exact hm
  · intro h p hp
    cases hpv : p.2.parentVal with
    | none => rfl
    | some o =>
      cases o with
      | none => rfl
      | some pid => exact h p hp pid hpv

theorem countP_eq_one_of_unique (nodes : Store) (cond : String × Entry → Bool)
    (k₀ : String) (e₀ : Entry) (hnd : (nodes.map Prod.fst).Nodup)
    (hmem : (k₀, e₀) ∈ nodes) (hcond : cond (k₀, e₀) = true)
    (huniq : ∀ p ∈ nodes, cond p = true → p.1 = k₀) :
    nodes.countP cond = 1 := by
  induction nodes with
  | nil => exact absurd hmem (List.not_mem_nil _)
  | cons p rest ih =>
    rw [List.map_cons, List.nodup_cons] at hnd
    rw [List.countP_cons]
    rcases List.mem_cons.mp hmem with h1 | h1
    · have hp1 : p.1 = k₀ := by rw [← h1]
      have hcp : cond p = true := by rw [← h1]; exact hcond
      rw [hcp, if_pos rfl]
      have hz : rest.countP cond = 0 := by
        rw [List.countP_eq_zero]
        intro q hq hcq
        have hq1 : q.1 = k₀ := huniq q (List.mem_cons_of_mem _ hq) hcq
        have hqm : q.1 ∈ List.map Prod.fst rest := List.mem_map_of_mem Prod.fst hq
        rw [hq1, ← hp1] at hqm
        exact absurd hqm hnd.1
      rw [hz]
    · have hk0 : k₀ ∈ List.map Prod.fst rest := by
        rw [show k₀ = (k₀, e₀).1 from rfl]
        exact List.mem_map_of_mem Prod.fst h1
      have hcp : cond p = false := by
        cases hc : cond p
        · rfl
        · have hp1 := huniq p (List.mem_cons_self _ _) hc
          rw [← hp1] at hk0
          exact absurd hk0 hnd.1
      rw [hcp, if_neg (by simp), Nat.add_zero]
      exact ih hnd.2 h1 (fun q hq hcq => huniq q (List.mem_cons_of_mem _ hq) hcq)

theorem childrenIds_mem_of (nodes : Store) (hwf : entriesWellFormed nodes = true)
    (k pid : String) (e : Entry) (hm : (k, e) ∈ nodes)
    (hpv : e.parentVal = some (some pid)) : k ∈ childrenIds nodes pid := by
  rw [childrenIds]
  rcases entriesWellFormed_mem nodes hwf k e hm with ⟨d, hde, hdk⟩
  have hv : e ∈ jsValues nodes := by
    rw [jsValues]
    exact List.mem_map_of_mem Prod.snd hm
  have hf : e ∈ (jsValues nodes).filter (fun x => x.parentVal = some (some pid)) :=
    List.mem_filter.mpr ⟨hv, by rw [hpv]; simp⟩
  have : Entry.jsId e = k := by rw [hde, Entry.jsId, hdk]
  rw [← this]
  exact List.mem_map_of_mem Entry.jsId hf

/-- The computed descendant set contains all children of the starting id and is
closed under taking children. -/
theorem getDescendants_closed (fuel : Nat) :
    ∀ (id : String) (nodes : Store) (descs : List String),
      getDescendants fuel id nodes = some descs →
      (∀ c ∈ childrenIds nodes id, c ∈ descs) ∧
      (∀ d ∈ descs, ∀ c ∈ childrenIds nodes d, c ∈ descs) := by
  induction fuel with
  | zero =>
    intro id nodes descs h
    rw [getDescendants] at h
    exact Option.noConfusion h
  | succ fuel ih =>
    intro id nodes descs h
    rw [getDescendants] at h
    cases hm : (childrenIds nodes id).mapM (fun c => getDescendants fuel c nodes) with
    | none => rw [hm] at h; exact Option.noConfusion h
    | some rests =>
      rw [hm, Option.map_some'] at h
      have hd := Option.some.inj h
      have hall := mapM_option_eq_some _ _ _ hm
      constructor
      · intro c hc
        rw [← hd]
        exact List.mem_append_left _ hc
      · intro d hdm c hc
        rw [← hd] at hdm ⊢
        rcases List.mem_append.mp hdm with h1 | h1
        · rcases forall₂_mem_left hall d h1 with ⟨rd, hrd, hgd⟩
          have hcin := (ih d nodes rd hgd).1 c hc
          exact List.mem_append_right _ (List.mem_flatten.mpr ⟨rd, hrd, hcin⟩)
        · rcases List.mem_flatten.mp h1 with ⟨rd, hrd, hdrd⟩
          rcases forall₂_mem_right hall rd hrd with ⟨d', _, hgd⟩
          have hcin := (ih d' nodes rd hgd).2 d hdrd c hc
          exact List.mem_append_right _ (List.mem_flatten.mpr ⟨rd, hrd, hcin⟩)

/-- Every computed descendant is some node's child. -/
theorem getDescendants_are_children (fuel : Nat) :
    ∀ (id : String) (nodes : Store) (descs : List String),
      getDescendants fuel id nodes = some descs →
      ∀ d ∈ descs, ∃ q, d ∈ childrenIds nodes q := by
  induction fuel with
  | zero =>
    intro id nodes descs h
    rw [getDescendants] at h
    exact Option.noConfusion h
  | succ fuel ih =>
    intro id nodes descs h
    rw [getDescendants] at h
    cases hm : (childrenIds nodes id).mapM (fun c => getDescendants fuel c nodes) with
    | none => rw [hm] at h; exact Option.noConfusion h
    | some rests =>
      rw [hm, Option.map_some'] at h
      have hd := Option.some.inj h
      have hall := mapM_option_eq_some _ _ _ hm
      intro d hdm
      rw [← hd] at hdm
      rcases List.mem_append.mp hdm with h1 | h1
      · exact ⟨id, h1⟩
      · rcases List.mem_flatten.mp h1 with ⟨rd, hrd, hdrd⟩
        rcases forall₂_mem_right hall rd hrd with ⟨d', _, hgd⟩
        exact ih d' nodes rd hgd d hdrd

/-- Decomposition of a successful non-root `deleteNode` call. -/
theorem deleteNode_inv (fuel : Nat) (id : String) (s s' : AppState)
    (hroot : id ≠ initialRootId) (h : deleteNode fuel id s = some s') :
    ∃ e descs, jsGet s.nodes id = some e ∧
      getDescendants fuel id s.nodes = some descs ∧
      s'.nodes = (id :: descs).foldl (fun m d => jsErase m d) s.nodes ∧
      s'.nodeDimensions =
        (id :: descs).foldl (fun m d => jsErase m d) s.nodeDimensions := by
  rw [deleteNode, if_neg hroot] at h
  cases hg : jsGet s.nodes id with
  | none => rw [hg] at h; exact Option.noConfusion h
  | some e =>
    rw [hg] at h
    cases hd : getDescendants fuel id s.nodes with
    | none => rw [hd] at h; exact Option.noConfusion h
    | some descs =>
      rw [hd] at h
      have hval : (Option.map
          (fun descs =>
            let idsToDelete := id :: descs
            let newNodes := List.foldl (fun m d => jsErase m d) s.nodes idsToDelete
            let newDims :=
              List.foldl (fun m d => jsErase m d) s.nodeDimensions idsToDelete
            let focus :=
              match e.parentVal with
              | some (some p) =>
                if (jsGet newNodes p).isSome = true then some p else s.focusedNodeId
              | _ => s.focusedNodeId
            ({ nodes := newNodes, focusedNodeId := focus,
               nodeDimensions := newDims } : AppState))
          (some descs)) = some s' := h
      rw [Option.map_some'] at hval
      have heq := (Option.some.inj hval).symm
      exact ⟨e, descs, rfl, rfl, by rw [heq], by rw [heq]⟩

/-- Core of C5 part one: a successful non-root delete removes the whole subtree
and leaves no remaining node pointing into the deleted set. -/
theorem delete_no_orphan (fuel : Nat) (s : AppState) (id : String) (s' : AppState)
    (descs : List String) (hwf : entriesWellFormed s.nodes = true)
    (hroot : id ≠ initialRootId)
    (hdesc : getDescendants fuel id s.nodes = some descs)
    (hdel : deleteNode fuel id s = some s') :
    (∀ d ∈ id :: descs, jsGet s'.nodes d = none) ∧
    (∀ p ∈ s'.nodes, ∀ pid, p.2.parentVal = some (some pid) → pid ∉ id :: descs) := by
  rcases deleteNode_inv fuel id s s' hroot hdel with ⟨e, descs', _, hdesc', hn, _⟩
  have hdd : descs' = descs := Option.some.inj (hdesc'.symm.trans hdesc)
  rw [hdd] at hn
  constructor
  · intro d hdm
    rw [hn, jsGet_foldl_erase, if_pos hdm]
  · intro p hp pid hpv hmem
    rw [hn] at hp
    rcases (mem_foldl_erase _ _ _).mp hp with ⟨hpold, hpnot⟩
    have hchild : p.1 ∈ childrenIds s.nodes pid :=
      childrenIds_mem_of s.nodes hwf p.1 pid p.2 hpold hpv
    rcases List.mem_cons.mp hmem with h1 | h1
    · exact hpnot (List.mem_cons_of_mem _
        ((getDescendants_closed fuel id s.nodes descs hdesc).1 p.1 (h1 ▸ hchild)))
    · exact hpnot (List.mem_cons_of_mem _
        ((getDescendants_closed fuel id s.nodes descs hdesc).2 pid h1 p.1 hchild))

/-- Inserting a fresh node under an existing parent preserves the store invariant. -/
theorem insert_node_preserves (s : Store) (n pid : String)
    (hinv : StoreInv s) (hn : jsGet s n = none) (hp : (jsGet s pid).isSome = true) :
    StoreInv (jsInsert s n (.node ⟨n, some pid, ""⟩)) := by
  rcases hinv with ⟨hnd, hwf, ⟨d₀, hrootg, hroot0⟩, huniq, hres, ⟨rank, hrank⟩⟩
  rw [jsInsert_of_none s n _ hn]
  have hnotin : n ∉ s.map Prod.fst := by
    intro hmm
    rcases List.mem_map.mp hmm with ⟨q, hq, hq1⟩
    exact (jsGet_eq_none_iff s n).mp hn q hq hq1
  have hkey : ∀ k, (jsGet s k).isSome = true →
      jsGet (s ++ [(n, Entry.node ⟨n, some pid, ""⟩)]) k = jsGet s k := by
    intro k hk
    rw [jsGet_append]
    cases hq : jsGet s k with
    | none => rw [hq] at hk; exact absurd hk (by simp)
    | some v => rfl
  have hpmem : pid ∈ s.map Prod.fst := by
    rcases Option.isSome_iff_exists.mp hp with ⟨v, hv⟩
    exact List.mem_map_of_mem Prod.fst (jsGet_mem s pid v hv)
  refine ⟨?_, ?_, ?_, ?_, ?_, ?_⟩
  · rw [List.map_append]
    refine List.Nodup.append hnd (List.nodup_singleton n) ?_
    intro a ha hb
    simp only [List.map_cons, List.map_nil, List.mem_singleton] at hb
    rw [hb] at ha
    exact hnotin ha
  · rw [entriesWellFormed, List.all_append, Bool.and_eq_true]
    exact ⟨hwf, by simp [Entry.jsId]⟩
  · refine ⟨d₀, ?_, hroot0⟩
    rw [hkey initialRootId (by rw [hrootg]; rfl)]
    exact hrootg
  · intro p hpm hpv
    rcases List.mem_append.mp hpm with h1 | h1
    · exact huniq p h1 hpv
    · rw [List.mem_singleton] at h1
      rw [h1, Entry.parentVal] at hpv
      exact absurd (Option.some.inj hpv) (by simp)
  · rw [parentsResolve_iff]
    intro p hpm pid' hpv
    rcases List.mem_append.mp hpm with h1 | h1
    · have hold := (parentsResolve_iff s).mp hres p h1 pid' hpv
      rw [hkey pid' hold]
      exact hold
    · rw [List.mem_singleton] at h1
      rw [h1, Entry.parentVal] at hpv
      have : pid' = pid := (Option.some.inj (Option.some.inj hpv)).symm
      rw [this, hkey pid hp]
      exact hp
  · refine ⟨fun x => if x = n then rank pid + 1 else rank x, ?_⟩
    intro p hpm pid' hpv
    rcases List.mem_append.mp hpm with h1 | h1
    · have hold := hrank p h1 pid' hpv
      have hp1 : p.1 ≠ n := fun hh => hnotin (hh ▸ List.mem_map_of_mem Prod.fst h1)
      have hpid' : pid' ≠ n := by
        intro hh
        have hres' := (parentsResolve_iff s).mp hres p h1 pid' hpv
        rcases Option.isSome_iff_exists.mp hres' with ⟨v, hv⟩
        exact hnotin (hh ▸ List.mem_map_of_mem Prod.fst (jsGet_mem s pid' v hv))
      dsimp only
      rw [if_neg hpid', if_neg hp1]
      exact hold
    · rw [List.mem_singleton] at h1
      rw [h1, Entry.parentVal] at hpv
      have hpideq : pid' = pid := (Option.some.inj (Option.some.inj hpv)).symm
      have hpidn : pid ≠ n := fun hh => hnotin (hh ▸ hpmem)
      rw [h1]
      dsimp only
      rw [hpideq, if_neg hpidn, if_pos (Eq.refl n)]
      exact Nat.lt_succ_self _

/-- A successful `deleteNode` preserves the store invariant. -/
theorem delete_preserves_storeinv (fuel : Nat) (s : AppState) (i : String)
    (s' : AppState) (hinv : StoreInv s.nodes) (hroot : i ≠ initialRootId)
    (hdel : deleteNode fuel i s = some s') : StoreInv s'.nodes := by
  rcases hinv with ⟨hnd, hwf, ⟨d₀, hrootg, hroot0⟩, huniq, hres, ⟨rank, hrank⟩⟩
  rcases deleteNode_inv fuel i s s' hroot hdel with ⟨e, descs, _, hdesc, hn, _⟩
  have hsub : s'.nodes.Sublist s.nodes := by
    rw [hn]
    exact foldl_erase_sublist _ _
  have hmem : ∀ p : String × Entry, p ∈ s'.nodes ↔ p ∈ s.nodes ∧ p.1 ∉ i :: descs := by
    intro p
    rw [hn]
    exact mem_foldl_erase _ _ _
  have hget : ∀ k, jsGet s'.nodes k =
      if k ∈ i :: descs then none else jsGet s.nodes k := by
    intro k
    rw [hn]
    exact jsGet_foldl_erase _ _ _
  have hrootnot : initialRootId ∉ i :: descs := by
    intro hmm
    rcases List.mem_cons.mp hmm with h1 | h1
    · exact hroot h1.symm
    · rcases getDescendants_are_children fuel i s.nodes descs hdesc
        initialRootId h1 with ⟨q, hq⟩
      rw [childrenIds] at hq
      rcases List.mem_map.mp hq with ⟨e', he', hid⟩
      rcases List.mem_filter.mp he' with ⟨hev, hepv⟩
      rw [jsValues] at hev
      rcases List.mem_map.mp hev with ⟨pr, hpr, hpre⟩
      rcases entriesWellFormed_mem s.nodes hwf pr.1 pr.2 hpr with ⟨dd, hdd, hddid⟩
      have hpr1 : pr.1 = initialRootId := by
        rw [← hddid, ← hid, ← hpre, hdd, Entry.jsId]
      have hlook := mem_jsGet_of_nodup s.nodes pr.1 pr.2 hnd hpr
      rw [hpr1, hrootg] at hlook
      have hprnode : pr.2 = Entry.node d₀ := (Option.some.inj hlook).symm
      have hpv : (pr.2).parentVal = some none := by
        rw [hprnode, Entry.parentVal, hroot0]
      rw [hpre] at hpv
      rw [hpv] at hepv
      simp at hepv
  refine ⟨?_, ?_, ?_, ?_, ?_, ?_⟩
  · exact (hsub.map Prod.fst).nodup hnd
  · rw [entriesWellFormed, List.all_eq_true]
    intro p hp
    rw [entriesWellFormed, List.all_eq_true] at hwf
    exact hwf p ((hmem p).mp hp).1
  · refine ⟨d₀, ?_, hroot0⟩
    rw [hget, if_neg hrootnot]
    exact hrootg
  · intro p hp hpv
    exact huniq p ((hmem p).mp hp).1 hpv
  · rw [parentsResolve_iff]
    intro p hp pid hpv
    rcases (hmem p).mp hp with ⟨hpold, hpnot⟩
    have hpidnot : pid ∉ i :: descs := by
      intro hpidmem
      have hchild : p.1 ∈ childrenIds s.nodes pid :=
        childrenIds_mem_of s.nodes hwf p.1 pid p.2 hpold hpv
      rcases List.mem_cons.mp hpidmem with h1 | h1
      · exact hpnot (List.mem_cons_of_mem _
          ((getDescendants_closed fuel i s.nodes descs hdesc).1 p.1 (h1 ▸ hchild)))
      · exact hpnot (List.mem_cons_of_mem _
          ((getDescendants_closed fuel i s.nodes descs hdesc).2 pid h1 p.1 hchild))
    rw [hget, if_neg hpidnot]
    exact (parentsResolve_iff s.nodes).mp hres p hpold pid hpv
  · exact ⟨rank, fun p hp pid hpv => hrank p ((hmem p).mp hp).1 pid hpv⟩

/-- Every well-targeted operation that completes preserves the store invariant. -/
theorem applyOp_preserves (fuel : Nat) (op : Op) (s s₁ : AppState)
    (hinv : StoreInv s.nodes) (hwt : wellTargeted op s = true)
    (happ : applyOp fuel op s = some s₁) : StoreInv s₁.nodes := by
  cases op with
  | child n p =>
    rw [wellTargeted, Bool.and_eq_true] at hwt
    have hs : addChild n p s = s₁ := Option.some.inj happ
    rw [← hs]
    exact insert_node_preserves s.nodes n p hinv
      (Option.isNone_iff_eq_none.mp hwt.2) hwt.1
  | sibling n r =>
    rw [wellTargeted, Bool.and_eq_true] at hwt
    rw [applyOp, addSibling] at happ
    cases hg : jsGet s.nodes r with
    | none => rw [hg] at happ; exact Option.noConfusion happ
    | some e =>
      rw [hg] at happ
      rcases entriesWellFormed_mem s.nodes hinv.2.1 r e (jsGet_mem _ _ _ hg) with
        ⟨d, hde, hdr⟩
      subst hde
      have happ2 : (match (Entry.node d).parentVal with
          | some (some pid) =>
            some { s with
                     nodes := jsInsert s.nodes n (.node ⟨n, some pid, ""⟩),
                     focusedNodeId := some n }
          | _ => some (addChild n r s)) = some s₁ := happ
      rw [show (Entry.node d).parentVal = some d.parentId from rfl] at happ2
      cases hdp : d.parentId with
      | none =>
        rw [hdp] at happ2
        have hs : addChild n r s = s₁ := Option.some.inj happ2
        rw [← hs]
        exact insert_node_preserves s.nodes n r hinv
          (Option.isNone_iff_eq_none.mp hwt.2) hwt.1
      | some pid =>
        rw [hdp] at happ2
        have hs : ({ s with
                       nodes := jsInsert s.nodes n (.node ⟨n, some pid, ""⟩),
                       focusedNodeId := some n } : AppState) = s₁ :=
          Option.some.inj happ2
        rw [← hs]
        have hrmem : (r, Entry.node d) ∈ s.nodes := jsGet_mem _ _ _ hg
        have hpid : (jsGet s.nodes pid).isSome = true :=
          (parentsResolve_iff s.nodes).mp hinv.2.2.2.2.1 (r, Entry.node d) hrmem pid
            (by rw [Entry.parentVal, hdp])
        exact insert_node_preserves s.nodes n pid hinv
          (Option.isNone_iff_eq_none.mp hwt.2) hpid
  | del i =>
    rw [applyOp] at happ
    by_cases hid : i = initialRootId
    · rw [hid, root_delete_is_noop] at happ
      have hs : s = s₁ := Option.some.inj happ
      rw [← hs]
      exact hinv
    · exact delete_preserves_storeinv fuel s i s₁ hinv hid happ

/-- The initial single-root state satisfies the store invariant. -/
theorem storeinv_initial : StoreInv initialState.nodes := by
  refine ⟨by decide, by decide, ⟨⟨"root", none, "Central Topic"⟩, by decide, rfl⟩,
    ?_, by decide, ⟨fun _ => 0, ?_⟩⟩
  · intro p hp _
    simp only [initialState, List.mem_singleton] at hp
    rw [hp]
    rfl
  · intro p hp pid hpv
    simp only [initialState, List.mem_singleton] at hp
    rw [hp, Entry.parentVal] at hpv
    exact absurd (Option.some.inj hpv) (by simp)

theorem runWT_preserves (fuel : Nat) (ops : List Op) (s s' : AppState)
    (hrun : RunWT fuel ops s s') (hinv : StoreInv s.nodes) : StoreInv s'.nodes := by
  induction hrun with
  | nil _ => exact hinv
  | cons op ops s s₁ s₂ hwt happ _ ih =>
    exact ih (applyOp_preserves fuel op s s₁ hinv hwt happ)

theorem storeinv_conclusions (nodes : Store) (hinv : StoreInv nodes) :
    singleNullParent nodes = true ∧ parentsResolve nodes = true := by
  rcases hinv with ⟨hnd, _, ⟨d₀, hrootg, hroot0⟩, huniq, hres, _⟩
  refine ⟨?_, hres⟩
  rw [singleNullParent]
  have hcount := countP_eq_one_of_unique nodes (fun p => p.2.parentVal == some none)
    initialRootId (Entry.node d₀) hnd (jsGet_mem _ _ _ hrootg)
    (by simp [Entry.parentVal, hroot0])
    (fun p hp hc => huniq p hp (by simpa using hc))
  rw [hcount]
  rfl

/-- Claim C5 amended: (i) a successful non-root `deleteNode` on a well-formed
store removes the node and its entire computed descendant set, and afterwards no
remaining node's `parentId` equals the deleted id or any deleted descendant;
(ii) after any completed sequence of well-targeted insert-child, insert-sibling
and delete operations starting from the initial state, exactly one node has
`parentId = null` and every other node's `parentId` resolves to an existing node.
(As stated the claim is false: the code never checks that `addChild`'s parent
exists, so an ill-targeted insert creates a dangling parent reference.) -/
theorem delete_subtree_and_invariant :
    (∀ (fuel : Nat) (s : AppState) (id : String) (s' : AppState)
        (descs : List String),
      entriesWellFormed s.nodes = true → id ≠ initialRootId →
      getDescendants fuel id s.nodes = some descs →
      deleteNode fuel id s = some s' →
      (∀ d ∈ id :: descs, jsGet s'.nodes d = none) ∧
      (∀ p ∈ s'.nodes, ∀ pid, p.2.parentVal = some (some pid) →
        pid ∉ id :: descs)) ∧
    (∀ (fuel : Nat) (ops : List Op) (s' : AppState),
      RunWT fuel ops initialState s' →
      singleNullParent s'.nodes = true ∧ parentsResolve s'.nodes = true) := by
  constructor
  · intro fuel s id s' descs hwf hroot hdesc hdel
    exact delete_no_orphan fuel s id s' descs hwf hroot hdesc hdel
  · intro fuel ops s' hrun
    exact storeinv_conclusions s'.nodes
      (runWT_preserves fuel ops initialState s' hrun storeinv_initial)

/-- Counterexample to claim C5 as stated: inserting a child under the nonexistent
parent id "ghost" succeeds and leaves a store where the new node's `parentId`
resolves to nothing. -/
theorem store_invariant_counterexample :
    parentsResolve (addChild "n1" "ghost" initialState).nodes = false ∧
    jsGet (addChild "n1" "ghost" initialState).nodes "n1" =
      some (.node ⟨"n1", some "ghost", ""⟩) ∧
    jsGet (addChild "n1" "ghost" initialState).nodes "ghost" = none := by
  decide

/-- Witness for the amended C5: a concrete delete with a descendant, and a
concrete three-operation run. -/
theorem delete_subtree_and_invariant_witness :
    ((∀ d ∈ ["a", "c"],
        jsGet (⟨[("root", .node ⟨"root", none, "Central Topic"⟩),
          ("b", .node ⟨"b", some "root", "B"⟩)], some "root", []⟩ : AppState).nodes d =
          none) ∧
      (∀ p ∈ (⟨[("root", .node ⟨"root", none, "Central Topic"⟩),
          ("b", .node ⟨"b", some "root", "B"⟩)], some "root", []⟩ : AppState).nodes,
        ∀ pid, p.2.parentVal = some (some pid) → pid ∉ ["a", "c"])) ∧
    singleNullParent [("root", Entry.node ⟨"root", none, "Central Topic"⟩)] = true ∧
    parentsResolve [("root", Entry.node ⟨"root", none, "Central Topic"⟩)] = true := by
  constructor
  · exact delete_subtree_and_invariant.1 5 ⟨storeInterleaved, some "c", []⟩ "a"
      ⟨[("root", .node ⟨"root", none, "Central Topic"⟩),
        ("b", .node ⟨"b", some "root", "B"⟩)], some "root", []⟩ ["c"]
      (by decide) (by decide) (by decide) (by decide)
  · exact delete_subtree_and_invariant.2 5
      [.child "a" "root", .child "b" "a", .del "a"]
      ⟨[("root", .node ⟨"root", none, "Central Topic"⟩)], some "root", []⟩
      (RunWT.cons _ _ _
        ⟨[("root", .node ⟨"root", none, "Central Topic"⟩),
          ("a", .node ⟨"a", some "root", ""⟩)], some "a", []⟩ _
        (by decide) (by decide)
        (RunWT.cons _ _ _
          ⟨[("root", .node ⟨"root", none, "Central Topic"⟩),
            ("a", .node ⟨"a", some "root", ""⟩),
            ("b", .node ⟨"b", some "a", ""⟩)], some "b", []⟩ _
          (by decide) (by decide)
          (RunWT.cons _ _ _
            ⟨[("root", .node ⟨"root", none, "Central Topic"⟩)], some "root", []⟩ _
            (by decide) (by decide)
            (RunWT.nil _))))

/- ## Claim C10: dimension reports for nonexistent ids -/

/-- Counterexample to claim C10 as stated: a dimension report for the absent id
"ghost" is not dropped — it is stored, so the state is not "as if the report had
never arrived" (the dimension table now holds an entry for "ghost"). -/
theorem ghost_resize_counterexample :
    jsGet initialState.nodes "ghost" = none ∧
    handleNodeResize "ghost" 10 10 initialState ≠ initialState ∧
    jsGet (handleNodeResize "ghost" 10 10 initialState).nodeDimensions "ghost" =
      some ⟨10, 10⟩ := by
  decide

/-- Claim C10 amended: a dimension report for an id that names no stored node is
accepted without error and stored in the dimension table, but it is invisible to
every subsequently computed layout: the node store and focus are untouched and
`calculateTreeLayout` over the unchanged store returns exactly what it returned
before the report. -/
theorem ghost_resize_layout_frame (s : AppState) (g : String) (w h : ℚ)
    (fuel : Nat) (rootId : String) (hroot : g ≠ rootId)
    (hids : ∀ p ∈ s.nodes, Entry.jsId p.2 ≠ g) :
    (handleNodeResize g w h s).nodes = s.nodes ∧
    (handleNodeResize g w h s).focusedNodeId = s.focusedNodeId ∧
    calculateTreeLayout fuel s.nodes rootId (handleNodeResize g w h s).nodeDimensions =
      calculateTreeLayout fuel s.nodes rootId s.nodeDimensions := by
  refine ⟨rfl, rfl, ?_⟩
  have key : ∀ dims' : DimTable,
      (∀ i, i ≠ g → jsGet dims' i = jsGet s.nodeDimensions i) →
      calculateTreeLayout fuel s.nodes rootId dims' =
        calculateTreeLayout fuel s.nodes rootId s.nodeDimensions := by
    intro dims' hd
    rw [calculateTreeLayout, calculateTreeLayout,
      measureNode_dims_congr g s.nodes hids s.nodeDimensions dims' hd fuel rootId 0
        (fun hh => hroot hh.symm)]
  rw [handleNodeResize]
  rcases hg : jsGet s.nodeDimensions g with _ | d
  · simp only
    exact key _ (fun i hi => jsGet_insert_ne _ _ _ _ hi)
  · simp only
    by_cases hsame : d.width = w ∧ d.height = h
    · rw [if_pos hsame]
    · rw [if_neg hsame]
      exact key _ (fun i hi => jsGet_insert_ne _ _ _ _ hi)

/-- Witness for the amended C10: a report for "ghost" on the initial store leaves
the computed layout unchanged. -/
theorem ghost_resize_layout_frame_witness :
    (handleNodeResize "ghost" 10 10 initialState).nodes = initialState.nodes ∧
    (handleNodeResize "ghost" 10 10 initialState).focusedNodeId =
      initialState.focusedNodeId ∧
    calculateTreeLayout 2 initialState.nodes initialRootId
        (handleNodeResize "ghost" 10 10 initialState).nodeDimensions =
      calculateTreeLayout 2 initialState.nodes initialRootId
        initialState.nodeDimensions :=
  ghost_resize_layout_frame initialState "ghost" 10 10 2 initialRootId
    (by decide) (by decide)

end MindMap
